import Mathlib

/-!
Verification of the Isolation game engine (`isolation/isolation.py`,
`game_agent.py`): board model, legal-move generation, utility, key
computation, reachability BFS, minimax / alpha-beta search with
transposition caching, and the iterative-deepening move driver.

Machine conventions of the embedding:
* board cells are `(row, column)` pairs of integers (`Loc`);
* the occupied set is a natural number used as a bit set, bit
  `row * width + col` marking cell `(row, col)` (exactly as in the source,
  which stores it in the unbounded Python int `board_state`);
* game values (`Val`) form the three-way domain `-inf / finite / +inf`
  mirroring the Python floats `float("-inf")`, finite scores and
  `float("inf")`; finite scores are integers, which is exact for the
  integer-valued score functions of the repository (`improved_score`,
  `open_move_score`, `null_score`);
* the two player objects are identified by `PlayerId.P1 / PlayerId.P2`
  (`player_1` / `player_2` of the source).
-/

/-- Game values: `-inf`, a finite (integer) score, or `+inf`. -/
inductive Val where
  | ninf : Val
  | fin : Int → Val
  | inf : Val
deriving DecidableEq, Repr

namespace Val

/-- `a ≤ b` on game values, mirroring Python float comparison. -/
def le : Val → Val → Bool
  | ninf, _ => true
  | fin _, ninf => false
  | fin a, fin b => a ≤ b
  | fin _, inf => true
  | inf, inf => true
  | inf, _ => false

/-- `a < b` on game values. -/
def lt (a b : Val) : Bool := !(le b a)

/-- Python `max(a, b)` (returns the first argument on ties). -/
def pmax (a b : Val) : Val := if le b a then a else b

/-- Python `min(a, b)` (returns the first argument on ties). -/
def pmin (a b : Val) : Val := if le a b then a else b

end Val

/-- The two player objects registered in a game (`player_1`, `player_2`). -/
inductive PlayerId where
  | P1 : PlayerId
  | P2 : PlayerId
deriving DecidableEq, Repr

/-- The opponent of a player. -/
def PlayerId.other : PlayerId → PlayerId
  | P1 => P2
  | P2 => P1

/-- A board coordinate pair `(row, column)`. -/
abbrev Loc := Int × Int

/-- The sentinel "no move" value `(-1, -1)`. -/
def noMove : Loc := (-1, -1)

/--
`isolation.Board`: the game state.  `boardState` is the occupied bit set
(`board_state`), `loc1`/`loc2` are the players' positions (`None` =
`NOT_MOVED`), `activeIsP1` tells whether `player_1` is the active player
(the source stores `active_player`/`inactive_player` object references;
with two fixed players this is one bit).
-/
structure Board where
  width : Nat
  height : Nat
  moveCount : Nat
  boardState : Nat
  loc1 : Option Loc
  loc2 : Option Loc
  activeIsP1 : Bool
deriving DecidableEq, Repr

namespace Board

/-- The knight move offsets `Board.L_MOVES`. -/
def L_MOVES : List (Int × Int) :=
  [(-2, -1), (-2, 1), (-1, -2), (-1, 2), (1, -2), (1, 2), (2, -1), (2, 1)]

/-- The active player as a `PlayerId`. -/
def active (b : Board) : PlayerId := if b.activeIsP1 then .P1 else .P2

/-- The inactive player as a `PlayerId`. -/
def inactive (b : Board) : PlayerId := if b.activeIsP1 then .P2 else .P1

/-- `self.locations[player]`. -/
def location (b : Board) (p : PlayerId) : Option Loc :=
  match p with
  | .P1 => b.loc1
  | .P2 => b.loc2

/-- The bit index `row * width + col` of a cell (as a natural number; the
source computes it on nonnegative coordinates whenever it is used to
shift, short-circuiting the range test first). -/
def bitIdx (b : Board) (l : Loc) : Nat := (l.1 * (b.width : Int) + l.2).toNat

/--
`Board.is_available(board_state, cell)`: the cell is in bounds and its bit
in the given occupancy bit set is clear.
-/
def is_available (b : Board) (state : Nat) (l : Loc) : Bool :=
  decide (0 ≤ l.1) && decide (l.1 < (b.height : Int)) &&
  decide (0 ≤ l.2) && decide (l.2 < (b.width : Int)) &&
  ((state >>> b.bitIdx l) &&& 1 == 0)

/-- The list `[(i, j) for j in range(width) for i in range(height)]`
(column-major, as the source comprehension iterates). -/
def allCells (b : Board) : List Loc :=
  (List.range b.width).flatMap fun (j : Nat) =>
    (List.range b.height).map fun (i : Nat) => ((i : Int), (j : Int))

/--
`Board.get_legal_moves(player)`.  A player that has not moved yet may go
to any cell (for `player_2` the source removes `player_1`'s location from
that list; when `player_1` has not moved either, the source's
`list.remove` would raise, a case never exercised by the engine — the
embedding leaves the list unchanged there).  A placed player moves like a
knight to available cells.  `none` selects the active player.
-/
def get_legal_moves (b : Board) (p : Option PlayerId) : List Loc :=
  let player := p.getD b.active
  match b.location player with
  | none =>
      let cells := b.allCells
      if player = .P2 then
        match b.loc1 with
        | some l => cells.erase l
        | none => cells
      else cells
  | some (r, c) =>
      (L_MOVES.map fun d => (r + d.1, c + d.2)).filter
        fun l => b.is_available b.boardState l

/--
`Board.apply_move(move)`: record the move as the active player's position,
mark the cell (the source adds `1 << (row*width+col)` to `board_state`,
with no legality check), swap active and inactive players, and increment
the move count.
-/
def apply_move (b : Board) (m : Loc) : Board :=
  { b with
    loc1 := if b.activeIsP1 then some m else b.loc1
    loc2 := if b.activeIsP1 then b.loc2 else some m
    boardState := b.boardState + 2 ^ b.bitIdx m
    activeIsP1 := !b.activeIsP1
    moveCount := b.moveCount + 1 }

/-- `Board.forecast_move(move)`: `apply_move` on a copy (the embedding's
states are pure values, so this is just `apply_move`). -/
def forecast_move (b : Board) (m : Loc) : Board := b.apply_move m

/-- The key type `Board_Key`. -/
abbrev Key := Nat × Option Loc × Option Loc × Bool

/-- `Board.get_key()`. -/
def get_key (b : Board) : Key :=
  (b.boardState, b.loc1, b.loc2, b.activeIsP1)

/-- `Board.forecast_key(move)`. -/
def forecast_key (b : Board) (m : Loc) : Key :=
  let newState := b.boardState + 2 ^ b.bitIdx m
  if b.activeIsP1 then
    (newState, some m, b.loc2, false)
  else
    (newState, b.loc1, some m, true)

/--
`Board.utility(player)`: `0` for a non-terminal state; at a state whose
active player has no legal move, `+inf` for the inactive player, `-inf`
for the active player, and `0` when no player is passed.
-/
def utility (b : Board) (p : Option PlayerId) : Val :=
  if (b.get_legal_moves (some b.active)).isEmpty then
    if p = some b.inactive then Val.inf
    else if p = some b.active then Val.ninf
    else Val.fin 0
  else Val.fin 0

end Board

/-- `Board.get_opponent(player)`. -/
def Board.get_opponent (b : Board) (p : PlayerId) : PlayerId :=
  if p = b.active then b.inactive else b.active

/-- The eight knight-move target cells of a cell, in `L_MOVES` order: the
comprehension `[(r + dr, c + dc) for dr, dc in Board.L_MOVES]` built by
both `get_legal_moves` and `get_reachable_locations`. -/
def knightNbrs (l : Loc) : List Loc :=
  Board.L_MOVES.map fun d => (l.1 + d.1, l.2 + d.2)

/-- One pass of the inner `for r, c in reachable_by_depth[d]` loop of
`Board.get_reachable_locations`: process the frontier cells in order; for
each one collect its knight neighbours still available in `explored`
(`just_reached`), append them to the level under construction, and mark
each of them in `explored` by adding its bit. -/
def Board.expandLevel (b : Board) : List Loc → Nat → List Loc × Nat
  | [], explored => ([], explored)
  | m :: rest, explored =>
      let jr := (knightNbrs m).filter fun l => b.is_available explored l
      let res := b.expandLevel rest
        (jr.foldl (fun e l => e + 2 ^ b.bitIdx l) explored)
      (jr ++ res.1, res.2)

/-- The `while d in reachable_by_depth` loop of
`Board.get_reachable_locations`, the dictionary (whose integer keys are
consecutive from 1) represented as the list of its buckets in key order:
each round expands the current bucket into the next one and stops when the
next bucket is empty.  `fuel` bounds the number of rounds; the source loop
needs no bound because every round marks at least one fresh cell of the
finite board, and the theorems show the fuel `width * height` the function
runs it with is never exhausted. -/
def Board.bfsLevels (b : Board) : Nat → List Loc → Nat → List (List Loc)
  | 0, _, _ => []
  | fuel + 1, frontier, explored =>
      let res := b.expandLevel frontier explored
      if res.1.isEmpty then []
      else res.1 :: b.bfsLevels fuel res.1 res.2

/-- `Board.get_reachable_locations(player)`: empty when the player has no
legal move; otherwise the legal moves form bucket 1 and are marked in
`explored` on top of `board_state`, and the BFS loop produces the
remaining buckets. -/
def Board.get_reachable_locations (b : Board) (p : PlayerId) : List (List Loc) :=
  let directly := b.get_legal_moves (some p)
  if directly.isEmpty then []
  else
    directly ::
      b.bfsLevels (b.width * b.height) directly
        (directly.foldl (fun e l => e + 2 ^ b.bitIdx l) b.boardState)

/-- Cells reachable from `l0` in exactly `d` knight hops with every
visited cell (the start excepted) available on the board: the
specification-side notion of hop distance the reachability theorems
compare the BFS against. -/
def Board.reachSets (b : Board) (l0 : Loc) : Nat → List Loc
  | 0 => [l0]
  | d + 1 =>
      ((b.reachSets l0 d).flatMap knightNbrs).filter fun l =>
        b.is_available b.boardState l

/-- The minimal number of knight hops (at least one) needed to reach `x`
from `l0` through available cells is exactly `d`. -/
def Board.MinDist (b : Board) (l0 : Loc) (d : Nat) (x : Loc) : Prop :=
  x ∈ b.reachSets l0 d ∧ ∀ e < d, 1 ≤ e → x ∉ b.reachSets l0 e

instance (b : Board) (l0 : Loc) (d : Nat) (x : Loc) :
    Decidable (b.MinDist l0 d x) :=
  decidable_of_iff
    (x ∈ b.reachSets l0 d ∧ ∀ e < d, 1 ≤ e → x ∉ b.reachSets l0 e) Iff.rfl

/-- The number of in-bounds cells still available in an occupancy bit
set: the strictly decreasing measure that bounds the BFS round count. -/
def Board.availCount (b : Board) (E : Nat) : Nat :=
  b.allCells.countP fun l => b.is_available E l

/-- Python `max(a, b, key=itemgetter(0))` on `(value, move)` pairs:
the second pair is chosen only when its value is strictly larger. -/
def pyMaxPair (a b : Val × Loc) : Val × Loc := if Val.lt a.1 b.1 then b else a

/-- Python `min(a, b, key=itemgetter(0))` on `(value, move)` pairs:
the second pair is chosen only when its value is strictly smaller. -/
def pyMinPair (a b : Val × Loc) : Val × Loc := if Val.lt b.1 a.1 then b else a

/-- `sample_players.improved_score`: the exact utility at a terminal
state, otherwise the difference between the players' numbers of legal
moves (an integer-valued score, embedded exactly). -/
def improved_score (g : Board) (p : PlayerId) : Val :=
  let u := g.utility (some p)
  if u ≠ Val.fin 0 then u
  else
    Val.fin ((g.get_legal_moves (some p)).length -
      (g.get_legal_moves (some (g.get_opponent p))).length)

/--
`CustomPlayer.minimax` under a timer that never falls below the abort
threshold (so the `Timeout` check at function entry never fires).  The
score function and the agent's own player identity (`self`, passed to
`utility` and to the score function) are parameters.  A non-terminal state
has legal moves, so Python's `max`/`min` over the children never sees an
empty list; the empty case below is unreachable and given the loop's
neutral element.
-/
def minimax (score : Board → PlayerId → Val) (agent : PlayerId) :
    Nat → Board → Bool → Val × Loc
  | depth, g, maximizing =>
    let u := g.utility (some agent)
    if u ≠ Val.fin 0 then (u, noMove)
    else
      match depth with
      | 0 => (score g agent, noMove)
      | d + 1 =>
        let children := (g.get_legal_moves none).map fun m =>
          ((minimax score agent d (g.forecast_move m) (!maximizing)).1, m)
        match children with
        | [] => (if maximizing then Val.ninf else Val.inf, noMove)
        | x :: xs => xs.foldl (if maximizing then pyMaxPair else pyMinPair) x

/-- The transposition table `self.cache`: a key-value list looked up by
first match; insertion prepends, so a later write to the same key shadows
the earlier one, exactly the observable behaviour of the Python dict. -/
abbrev Cache := List (Board.Key × Val × Int)

/-- `self.cache.get(key, default)` without the default. -/
def Cache.get? (c : Cache) (k : Board.Key) : Option (Val × Int) :=
  (c.find? fun e => decide (e.1 = k)).map (·.2)

/-- `self.cache[key] = value`. -/
def Cache.insert (c : Cache) (k : Board.Key) (v : Val × Int) : Cache :=
  (k, v) :: c

/-- Decidable equality of cache entries (the nested product of
abbreviations needs the instance spelled out for instance search). -/
instance : DecidableEq (Board.Key × Val × Int) :=
  @instDecidableEqProd _ _ inferInstance inferInstance

/-- Insert `x` into an already sorted list, after every element `y` with
`le y x` — the insertion step of a stable insertion sort. -/
def insertAsc (le : α → α → Bool) (x : α) : List α → List α
  | [] => [x]
  | y :: ys => if le y x then y :: insertAsc le x ys else x :: y :: ys

/-- Stable sort by repeated insertion (model of Python's stable
`list.sort`). -/
def sortStable (le : α → α → Bool) (l : List α) : List α :=
  l.foldl (fun acc x => insertAsc le x acc) []

/--
`CustomPlayer.get_sorted_moves(game, reverse)`: pair every legal move with
the cached value and cache depth of the successor state (default
`(-inf, -1)` when sorting in descending order, `(inf, -1)` in ascending
order), stably sorted by cached value — descending when `reverse` is
true.
-/
def Board.get_sorted_moves (cache : Cache) (b : Board) (reverse : Bool) :
    List (Loc × Val × Int) :=
  let dflt : Val × Int := (if reverse then Val.ninf else Val.inf, -1)
  let moves := (b.get_legal_moves none).map fun m =>
    (m, (Cache.get? cache (b.forecast_key m)).getD dflt)
  sortStable
    (fun x y => if reverse then Val.le y.2.1 x.2.1 else Val.le x.2.1 y.2.1)
    moves

/--
The move loop of `CustomPlayer.alphabeta` (both layers).  For each sorted
entry `(move, cached value, cached depth)`: reuse the cached value when
`cached depth ≥ depth - 1` (`dM1`), otherwise recurse into the child with
the current window; fold the result with Python's `max`/`min`; break on
`value ≥ beta` (maximizing) or `value ≤ alpha` (minimizing); otherwise
tighten the window and continue.  The transposition table is threaded
through the child calls.
-/
def abCacheLoop (child : Board → Val → Val → Cache → (Val × Loc) × Cache)
    (g : Board) (dM1 : Int) (maximizing : Bool) :
    List (Loc × Val × Int) → (Val × Loc) → Val → Val → Cache →
      (Val × Loc) × Cache
  | [], result, _, _, cache => (result, cache)
  | (move, cv, cd) :: rest, result, alpha, beta, cache =>
    let vc : Val × Cache :=
      if dM1 ≤ cd then (cv, cache)
      else
        let r := child (g.forecast_move move) alpha beta cache
        (r.1.1, r.2)
    let result' :=
      if maximizing then pyMaxPair result (vc.1, move)
      else pyMinPair result (vc.1, move)
    if maximizing then
      if Val.le beta vc.1 then (result', vc.2)
      else abCacheLoop child g dM1 maximizing rest result'
        (Val.pmax alpha vc.1) beta vc.2
    else
      if Val.le vc.1 alpha then (result', vc.2)
      else abCacheLoop child g dM1 maximizing rest result'
        alpha (Val.pmin beta vc.1) vc.2

/--
`CustomPlayer.alphabeta` with its transposition caching and move ordering
as implemented, under a timer that never falls below the abort threshold.
Terminal and depth-0 states return utility / score directly; otherwise
the sorted-move loop runs with alpha-beta pruning.  In every case the
node's own result is written to the cache, keyed by the node's state key,
tagged with the requested depth.
-/
def alphabeta (score : Board → PlayerId → Val) (agent : PlayerId) :
    Nat → Board → Val → Val → Bool → Cache → (Val × Loc) × Cache
  | depth, g, alpha, beta, maximizing, cache =>
    let u := g.utility (some agent)
    let rc : (Val × Loc) × Cache :=
      if u ≠ Val.fin 0 then ((u, noMove), cache)
      else
        match depth with
        | 0 => ((score g agent, noMove), cache)
        | d + 1 =>
          abCacheLoop
            (fun g' a b c => alphabeta score agent d g' a b (!maximizing) c)
            g (d : Int) maximizing
            (Board.get_sorted_moves cache g maximizing)
            (if maximizing then Val.ninf else Val.inf, noMove)
            alpha beta cache
    (rc.1, Cache.insert rc.2 g.get_key (rc.1.1, (depth : Int)))

/-- The move loop of alpha-beta with caching and move ordering disabled:
children in legal-move enumeration order, always recursing. -/
def abPlainLoop (child : Board → Val → Val → Val) (g : Board)
    (maximizing : Bool) :
    List Loc → (Val × Loc) → Val → Val → Val × Loc
  | [], result, _, _ => result
  | move :: rest, result, alpha, beta =>
    let value := child (g.forecast_move move) alpha beta
    let result' :=
      if maximizing then pyMaxPair result (value, move)
      else pyMinPair result (value, move)
    if maximizing then
      if Val.le beta value then result'
      else abPlainLoop child g maximizing rest result' (Val.pmax alpha value)
        beta
    else
      if Val.le value alpha then result'
      else abPlainLoop child g maximizing rest result' alpha
        (Val.pmin beta value)

/--
Modelled from the spec: `alphabeta` "with caching/ordering disabled" — a
configuration the spec's constructor option `useMoveReordering` promises
but that is absent from `game_agent.py` (the source's `alphabeta` always
consults and writes `self.cache`).  Identical terminal/leaf handling to
`minimax`; children are explored in legal-move enumeration order with
alpha-beta pruning only.
-/
def alphabeta_nc (score : Board → PlayerId → Val) (agent : PlayerId) :
    Nat → Board → Val → Val → Bool → Val × Loc
  | depth, g, alpha, beta, maximizing =>
    let u := g.utility (some agent)
    if u ≠ Val.fin 0 then (u, noMove)
    else
      match depth with
      | 0 => (score g agent, noMove)
      | d + 1 =>
        abPlainLoop
          (fun g' a b => (alphabeta_nc score agent d g' a b (!maximizing)).1)
          g maximizing (g.get_legal_moves none)
          (if maximizing then Val.ninf else Val.inf, noMove) alpha beta

/--
The concrete 5×5 position used to separate `minimax` from the cached
`alphabeta`: player 1 (to move, the agent, maximizing) on (3,3), player 2
on (0,0), and eleven further blocked cells.  Its depth-7 search tree
contains a six-ply transposition (the players exchange the two-move
chains (2,1)→(1,3) and (1,2)→(2,0) and then converge on (0,1) and (3,2)),
so a value cached after an alpha-beta cutoff — a bound, not an exact
value — is later reused as exact.
-/
def exC1 : Board :=
  { width := 5
    height := 5
    moveCount := 13
    boardState :=
      [(3,3),(0,0),(0,3),(0,4),(1,0),(1,1),(1,4),(2,4),(3,0),(3,1),(3,4),
        (4,1),(4,3)].foldl
        (fun acc l => acc + 2 ^ ((l.1 * 5 + l.2) : Nat)) 0
    loc1 := some (3, 3)
    loc2 := some (0, 0)
    activeIsP1 := true }

/-- A 3×3 position whose active player (player 1, at the centre) has no
legal move: all knight moves from the centre of a 3×3 board leave the
board. -/
def exTerminal : Board :=
  { width := 3
    height := 3
    moveCount := 2
    boardState := 2 ^ 4 + 2 ^ 0
    loc1 := some (1, 1)
    loc2 := some (0, 0)
    activeIsP1 := true }

/-- A 3×3 position whose active player (player 1, at (0,0)) has two legal
moves, while player 2 sits on (2,2). -/
def exOpen : Board :=
  { width := 3
    height := 3
    moveCount := 2
    boardState := 2 ^ 0 + 2 ^ 8
    loc1 := some (0, 0)
    loc2 := some (2, 2)
    activeIsP1 := true }

/-- A 3×3 board on which neither player has placed yet but cell (0,0) is
already marked occupied (`board_state = 1`, `move_count = 1`). -/
def exC10 : Board :=
  { width := 3
    height := 3
    moveCount := 1
    boardState := 1
    loc1 := none
    loc2 := none
    activeIsP1 := true }

/-- A 3×3 board with player 1 alone at the centre, its own cell the only
occupied one: knight moves from the centre of a 3×3 board all leave the
board, so the player has no legal move. -/
def exC8 : Board :=
  { width := 3
    height := 3
    moveCount := 1
    boardState := 2 ^ 4
    loc1 := some (1, 1)
    loc2 := none
    activeIsP1 := false }

/-- Left fold of Python `max` over a list of values. -/
def Val.vmax (a : Val) (l : List Val) : Val := l.foldl Val.pmax a

/-- Left fold of Python `min` over a list of values. -/
def Val.vmin (a : Val) (l : List Val) : Val := l.foldl Val.pmin a

/--
Fail-soft bound relation of alpha-beta: `w` is the value returned for a
node of true (minimax) value `v` searched under window `(α, β)`: exact
strictly inside the window, an upper bound on `v` at or below `α`, a lower
bound on `v` at or above `β`.
-/
def FailSoft (v w α β : Val) : Prop :=
  (Val.lt α v = true ∧ Val.lt v β = true → w = v) ∧
  (Val.le v α = true → Val.le v w = true ∧ Val.le w α = true) ∧
  (Val.le β v = true → Val.le β w = true ∧ Val.le w v = true)

/-!
Clocked search machinery.  The source's `minimax` and `alphabeta` begin
with `if self.time_left() < self.TIMER_THRESHOLD: raise Timeout()`.  The
embedding models the timer as an oracle `ok : Nat → Bool` giving the
outcome of the n-th check (`true` = time remains above the threshold) and
threads the check counter through the search; a raised `Timeout` is the
`Except.error` case.  A wall clock is monotone, so faithful oracles are
`true` up to some point and `false` afterwards; the constant oracles and
`fun n => n < K` used below are of that shape.
-/

/-- Evaluate the children of a minimax node left to right, propagating a
`Timeout` raised inside any child (the Python list comprehension at
`game_agent.py:238`). -/
def mmChildrenT (f : Board → Bool → Nat → Except Unit (Val × Loc) × Nat)
    (g : Board) (mx : Bool) :
    List Loc → Nat → Except Unit (List (Val × Loc)) × Nat
  | [], n => (.ok [], n)
  | m :: rest, n =>
    match f (g.forecast_move m) mx n with
    | (.error e, n1) => (.error e, n1)
    | (.ok r, n1) =>
      match mmChildrenT f g mx rest n1 with
      | (.error e, n2) => (.error e, n2)
      | (.ok tail, n2) => (.ok ((r.1, m) :: tail), n2)

/-- `CustomPlayer.minimax` with the timeout check modelled by the clock
oracle. -/
def minimaxT (score : Board → PlayerId → Val) (agent : PlayerId)
    (ok : Nat → Bool) :
    Nat → Board → Bool → Nat → Except Unit (Val × Loc) × Nat
  | depth, g, mx, n =>
    if ok n = false then (.error (), n)
    else
      let u := g.utility (some agent)
      if u ≠ Val.fin 0 then (.ok (u, noMove), n + 1)
      else
        match depth with
        | 0 => (.ok (score g agent, noMove), n + 1)
        | d + 1 =>
          match mmChildrenT (minimaxT score agent ok d) g (!mx)
              (g.get_legal_moves none) (n + 1) with
          | (.error e, n2) => (.error e, n2)
          | (.ok [], n2) => (.ok (if mx then Val.ninf else Val.inf, noMove), n2)
          | (.ok (x :: xs), n2) =>
            (.ok (xs.foldl (if mx then pyMaxPair else pyMinPair) x), n2)

/-- The move loop of `CustomPlayer.alphabeta` with clock and cache
threading; a `Timeout` in a child unwinds, keeping the cache writes the
completed subtrees already made. -/
def abLoopT
    (child : Board → Val → Val → Cache → Nat →
      Except Unit (Val × Loc) × Cache × Nat)
    (g : Board) (dM1 : Int) (maximizing : Bool) :
    List (Loc × Val × Int) → (Val × Loc) → Val → Val → Cache → Nat →
      Except Unit (Val × Loc) × Cache × Nat
  | [], result, _, _, cache, n => (.ok result, cache, n)
  | (move, cv, cd) :: rest, result, alpha, beta, cache, n =>
    match (if dM1 ≤ cd then ((.ok (cv, noMove) : Except Unit (Val × Loc)), cache, n)
           else child (g.forecast_move move) alpha beta cache n) with
    | (.error e, cache1, n1) => (.error e, cache1, n1)
    | (.ok r, cache1, n1) =>
      let value := r.1
      let result1 :=
        if maximizing then pyMaxPair result (value, move)
        else pyMinPair result (value, move)
      if maximizing then
        if Val.le beta value then (.ok result1, cache1, n1)
        else abLoopT child g dM1 maximizing rest result1
          (Val.pmax alpha value) beta cache1 n1
      else
        if Val.le value alpha then (.ok result1, cache1, n1)
        else abLoopT child g dM1 maximizing rest result1
          alpha (Val.pmin beta value) cache1 n1

/-- `CustomPlayer.alphabeta` with the timeout check modelled by the clock
oracle; the node's own cache write happens only when its subtree
completed without a `Timeout`. -/
def alphabetaT (score : Board → PlayerId → Val) (agent : PlayerId)
    (ok : Nat → Bool) :
    Nat → Board → Val → Val → Bool → Cache → Nat →
      Except Unit (Val × Loc) × Cache × Nat
  | depth, g, alpha, beta, mx, cache, n =>
    if ok n = false then (.error (), cache, n)
    else
      let u := g.utility (some agent)
      let rcn : Except Unit (Val × Loc) × Cache × Nat :=
        if u ≠ Val.fin 0 then (.ok (u, noMove), cache, n + 1)
        else
          match depth with
          | 0 => (.ok (score g agent, noMove), cache, n + 1)
          | d + 1 =>
            abLoopT (fun g1 a b c m => alphabetaT score agent ok d g1 a b (!mx) c m)
              g (d : Int) mx (Board.get_sorted_moves cache g mx)
              (if mx then Val.ninf else Val.inf, noMove) alpha beta cache (n + 1)
      match rcn with
      | (.error e, cache1, n1) => (.error e, cache1, n1)
      | (.ok r, cache1, n1) =>
        (.ok r, Cache.insert cache1 g.get_key (r.1, (depth : Int)), n1)

/-- The agent configuration of `CustomPlayer.__init__`: fixed search
depth, iterative-deepening flag, search method (`true` = alphabeta), the
agent's own player identity and its score function. -/
structure AgentCfg where
  search_depth : Nat
  iterative : Bool
  methodAB : Bool
  agent : PlayerId
  score : Board → PlayerId → Val

/-- `method_fn(game, depth, True)` of `CustomPlayer.get_move`: the
selected search from the root with the full window. -/
def methodFn (cfg : AgentCfg) (ok : Nat → Bool) (g : Board) (depth : Nat)
    (cache : Cache) (n : Nat) : Except Unit (Val × Loc) × Cache × Nat :=
  if cfg.methodAB then
    alphabetaT cfg.score cfg.agent ok depth g Val.ninf Val.inf true cache n
  else
    match minimaxT cfg.score cfg.agent ok depth g true n with
    | (.error e, n1) => (.error e, cache, n1)
    | (.ok r, n1) => (.ok r, cache, n1)

/-- The iterative-deepening `while True` loop of `get_move`: it exits only
through the `Timeout` exception, keeping the best `(value, move)` seen.
`fuel` bounds the number of modelled iterations; `none` means the loop was
still running after `fuel` iterations. -/
def deepen (cfg : AgentCfg) (ok : Nat → Bool) (g : Board) :
    Nat → (Val × Loc) → Nat → Cache → Nat →
      Option ((Val × Loc) × Cache × Nat)
  | 0, _, _, _, _ => none
  | fuel + 1, best, depth, cache, n =>
    match methodFn cfg ok g depth cache n with
    | (.error _, cache1, n1) => some (best, cache1, n1)
    | (.ok r, cache1, n1) =>
      deepen cfg ok g fuel (pyMaxPair best r) (depth + 1) cache1 n1

/--
`CustomPlayer.get_move(game, legal_moves, time_left)`: return the
sentinel when there is no legal move; otherwise pre-seed the best move
with the first legal move scored at depth 0, then run either the
iterative-deepening loop or one fixed-depth search, returning the best
move on `Timeout`.  The agent's mutable state (transposition cache) and
the clock counter are threaded; `none` means the deepening loop was still
running when the modelled fuel ran out.
-/
def get_move (cfg : AgentCfg) (ok : Nat → Bool) (fuel : Nat) (g : Board)
    (legal_moves : List Loc) (cache : Cache) (n : Nat) :
    Option (Loc × Cache × Nat) :=
  if legal_moves.isEmpty then some (noMove, cache, n)
  else
    let first := legal_moves.headD noMove
    let best : Val × Loc := (cfg.score (g.forecast_move first) cfg.agent, first)
    if cfg.iterative then
      match deepen cfg ok g fuel best 1 cache n with
      | none => none
      | some (b, cache1, n1) => some (b.2, cache1, n1)
    else
      match methodFn cfg ok g cfg.search_depth cache n with
      | (.error _, cache1, n1) => some (best.2, cache1, n1)
      | (.ok r, cache1, n1) => some (r.2, cache1, n1)

/-- A 3×3 position, four cells blocked, in which the active player
(player 1 on (0,0), the agent) wins at depth 1: either move leaves
player 2 (on (0,1)) with both knight targets (2,0), (2,2) occupied. -/
def exC3 : Board :=
  { width := 3
    height := 3
    moveCount := 4
    boardState := [(0,0),(0,1),(2,0),(2,2)].foldl
      (fun acc l => acc + 2 ^ ((l.1 * 3 + l.2) : Nat)) 0
    loc1 := some (0, 0)
    loc2 := some (0, 1)
    activeIsP1 := true }

/-- A 4×4 position (players on (2,1), (3,0), four more cells blocked)
whose iterative-deepening searches are sensitive to the transposition
cache: see `get_move_not_idempotent`. -/
def exC7 : Board :=
  { width := 4
    height := 4
    moveCount := 6
    boardState := [(2,1),(3,0),(0,3),(1,2),(2,0),(2,2)].foldl
      (fun acc l => acc + 2 ^ ((l.1 * 4 + l.2) : Nat)) 0
    loc1 := some (2, 1)
    loc2 := some (3, 0)
    activeIsP1 := true }

/-- An iterative-deepening alpha-beta agent playing as player 1 with the
repository's `improved_score`. -/
def cfgAB : AgentCfg :=
  { search_depth := 3
    iterative := true
    methodAB := true
    agent := .P1
    score := improved_score }

/-- The same agent configured with `method = minimax`. -/
def cfgMM : AgentCfg :=
  { search_depth := 3
    iterative := true
    methodAB := false
    agent := .P1
    score := improved_score }

/-- First `get_move` call of the idempotence scenario: fresh cache, a
timer allowing nine checks (depth 1 completes; depth 2 times out). -/
def exC7call1 : Option (Loc × Cache × Nat) :=
  get_move cfgAB (fun n => decide (n < 9)) 5 exC7
    (exC7.get_legal_moves none) [] 0

/-- The transposition cache left behind by `exC7call1`. -/
def exC7cache1 : Cache :=
  match exC7call1 with
  | some (_, c, _) => c
  | none => []

/-- Second `get_move` call on the same immutable state, with the cache
populated by the first call and a fresh timer allowing one check (depth 1
again completes — entirely from the cache — and depth 2 times out). -/
def exC7call2 : Option (Loc × Cache × Nat) :=
  get_move cfgAB (fun n => decide (n < 1)) 5 exC7
    (exC7.get_legal_moves none) exC7cache1 0

/-- A `get_move` call on a different board whose move count (2) is lower
than `exC7`'s (6) — the spec's new-game signal — reusing the agent cache
left by `exC7call1`, under an immediately expiring timer. -/
def exC4call2 : Option (Loc × Cache × Nat) :=
  get_move cfgAB (fun _ => false) 5 exOpen
    (exOpen.get_legal_moves none) exC7cache1 0

/-- The cache returned by `exC4call2`. -/
def exC4cache2 : Cache :=
  match exC4call2 with
  | some (_, c, _) => c
  | none => []

/-- The move returned by the first idempotence-scenario call. -/
def exC7move1 : Loc :=
  match exC7call1 with
  | some (m, _, _) => m
  | none => noMove

/-- The move returned by the second idempotence-scenario call. -/
def exC7move2 : Loc :=
  match exC7call2 with
  | some (m, _, _) => m
  | none => noMove

namespace Val

theorem le_refl (a : Val) : le a a = true := by
  cases a <;> simp [le]

theorem le_trans {a b c : Val} (h1 : le a b = true) (h2 : le b c = true) :
    le a c = true := by
  cases a <;> cases b <;> cases c <;> simp_all [le] <;> omega

theorem le_total (a b : Val) : le a b = true ∨ le b a = true := by
  cases a <;> cases b <;> simp [le] <;> omega

theorem le_antisymm {a b : Val} (h1 : le a b = true) (h2 : le b a = true) :
    a = b := by
  cases a <;> cases b <;> simp_all [le] <;> omega

theorem not_le {a b : Val} : le a b = false ↔ lt b a = true := by
  simp [lt]

theorem lt_irrefl (a : Val) : lt a a = false := by
  simp [lt, le_refl]

theorem le_of_lt {a b : Val} (h : lt a b = true) : le a b = true := by
  rcases le_total a b with h' | h'
  · exact h'
  · simp [lt, h'] at h

theorem lt_of_le_of_lt {a b c : Val} (h1 : le a b = true) (h2 : lt b c = true) :
    lt a c = true := by
  simp only [lt, Bool.not_eq_true'] at h2 ⊢
  cases hca : le c a
  · rfl
  · exact absurd (le_trans hca h1) (by simp [h2])

theorem lt_of_lt_of_le {a b c : Val} (h1 : lt a b = true) (h2 : le b c = true) :
    lt a c = true := by
  simp only [lt, Bool.not_eq_true'] at h1 ⊢
  cases hca : le c a
  · rfl
  · exact absurd (le_trans h2 hca) (by simp [h1])

theorem le_pmax_left (a b : Val) : le a (pmax a b) = true := by
  unfold pmax
  split
  · exact le_refl a
  · rcases le_total a b with h | h
    · exact h
    · simp_all

theorem le_pmax_right (a b : Val) : le b (pmax a b) = true := by
  unfold pmax
  split
  · assumption
  · exact le_refl b

theorem pmax_le {a b c : Val} (h1 : le a c = true) (h2 : le b c = true) :
    le (pmax a b) c = true := by
  unfold pmax; split <;> assumption

theorem pmax_cases (a b : Val) : pmax a b = a ∨ pmax a b = b := by
  unfold pmax; split <;> simp


end Val

/-- Bridge between the source's availability test `(state >> idx) & 1 == 0`
and `Nat.testBit`. -/
theorem and_one_eq_zero_iff_testBit (state idx : Nat) :
    ((state >>> idx) &&& 1 == 0) = !state.testBit idx := by
  rw [Nat.testBit_to_div_mod, Nat.and_one_is_mod, Nat.shiftRight_eq_div_pow]
  rcases Nat.mod_two_eq_zero_or_one (state / 2 ^ idx) with h | h <;> simp [h]

/-- Adding `2 ^ k` to a number whose bit `k` is clear sets bit `k` and
leaves every other bit unchanged. -/
theorem testBit_add_two_pow {e : Nat} (k j : Nat) (h : e.testBit k = false) :
    (e + 2 ^ k).testBit j = (j == k || e.testBit j) := by
  obtain ⟨q, r, hrlt, hdm⟩ : ∃ q r, r < 2 ^ (k + 1) ∧ e = 2 ^ (k + 1) * q + r :=
    ⟨e / 2 ^ (k + 1), e % 2 ^ (k + 1),
      Nat.mod_lt _ (Nat.pos_pow_of_pos _ (by omega)),
      (Nat.div_add_mod e _).symm⟩
  subst hdm
  have hrk : r < 2 ^ k := by
    rw [Nat.testBit_mul_pow_two_add q hrlt k, if_pos (Nat.lt_succ_self k)] at h
    by_contra hge
    push_neg at hge
    have htrue : r.testBit k = true := by
      rw [Nat.testBit_to_div_mod]
      have h1 : r / 2 ^ k = 1 := by
        have hlt : r / 2 ^ k < 2 :=
          Nat.div_lt_of_lt_mul (by rw [← Nat.pow_succ]; exact hrlt)
        have hge1 : 1 ≤ r / 2 ^ k :=
          (Nat.one_le_div_iff (Nat.pos_pow_of_pos _ (by omega))).mpr hge
        omega
      rw [h1]
      simp
    simp [htrue] at h
  have hsum : 2 ^ (k + 1) * q + r + 2 ^ k = 2 ^ (k + 1) * q + (2 ^ k + r) := by
    ring
  have hlt2 : 2 ^ k + r < 2 ^ (k + 1) := by
    rw [Nat.pow_succ]
    omega
  rw [hsum, Nat.testBit_mul_pow_two_add q hlt2 j,
    Nat.testBit_mul_pow_two_add q hrlt j]
  by_cases hj : j < k + 1
  · rw [if_pos hj, if_pos hj]
    by_cases hjk : j = k
    · subst hjk
      rw [Nat.testBit_two_pow_add_eq, Nat.testBit_lt_two_pow hrk]
      simp
    · have hlt : j < k := by omega
      rw [Nat.testBit_two_pow_add_gt hlt]
      simp [hjk]
  · rw [if_neg hj, if_neg hj]
    have hne : j ≠ k := by omega
    simp [hne]

/-- The active and inactive players are always distinct. -/
theorem active_ne_inactive (b : Board) : b.active ≠ b.inactive := by
  unfold Board.active Board.inactive
  cases b.activeIsP1 <;> simp

/--
**C5.** For every board state: if the active player has at least one legal
move, `utility` returns 0 for every queried player; if the active player
has no legal move, `utility` of the active player is `-inf`, of the
inactive player `+inf`, and `utility` called with no player specified
returns 0.
-/
theorem utility_cases (b : Board) :
    (b.get_legal_moves (some b.active) ≠ [] →
      ∀ p : Option PlayerId, b.utility p = Val.fin 0) ∧
    (b.get_legal_moves (some b.active) = [] →
      b.utility (some b.active) = Val.ninf ∧
      b.utility (some b.inactive) = Val.inf ∧
      b.utility none = Val.fin 0) := by
  constructor
  · intro h p
    unfold Board.utility
    rw [if_neg]
    simp only [List.isEmpty_iff]
    exact h
  · intro h
    have hact : ¬ b.active = b.inactive := active_ne_inactive b
    refine ⟨?_, ?_, ?_⟩ <;> simp [Board.utility, h, hact]

/-- Witness for `utility_cases`: a non-terminal and a terminal 3×3
position. -/
theorem utility_cases_witness :
    exOpen.utility none = Val.fin 0 ∧
    exTerminal.utility (some exTerminal.active) = Val.ninf ∧
    exTerminal.utility (some exTerminal.inactive) = Val.inf ∧
    exTerminal.utility none = Val.fin 0 :=
  ⟨(utility_cases exOpen).1 (by decide) none,
   ((utility_cases exTerminal).2 (by decide)).1,
   ((utility_cases exTerminal).2 (by decide)).2.1,
   ((utility_cases exTerminal).2 (by decide)).2.2⟩

/--
**C9.** For every board state and every legal move `loc` of the active
player, `forecast_key loc` equals the key of the successor state, i.e.
`forecast_key loc = (forecast_move loc).get_key`.
-/
theorem forecast_key_eq (b : Board) (m : Loc)
    (hm : m ∈ b.get_legal_moves none) :
    b.forecast_key m = (b.forecast_move m).get_key := by
  unfold Board.forecast_key Board.forecast_move Board.apply_move Board.get_key
  cases h : b.activeIsP1 <;> simp [h]

/-- Witness for `forecast_key_eq` on a concrete legal move. -/
theorem forecast_key_eq_witness :
    ((1 : Int), (2 : Int)) ∈ exOpen.get_legal_moves none ∧
    exOpen.forecast_key (1, 2) = (exOpen.forecast_move (1, 2)).get_key :=
  ⟨by decide, forecast_key_eq exOpen (1, 2) (by decide)⟩

/--
**C2 counterexample.** The claim says `apply_move` requires a legal
location and fails with an `IllegalMoveError` whenever the location is out
of range or already occupied.  The source has no such check (and no
`IllegalMoveError` exists anywhere in the repository): applying the
occupied cell (2,2) on `exOpen` is silently accepted, returning a normal
successor state — and because `board_state` is updated with `+` rather
than a bitwise or, the carry even frees the cell just moved to.
-/
theorem apply_move_accepts_occupied :
    (¬ ((2 : Int), (2 : Int)) ∈ exOpen.get_legal_moves none) ∧
    exOpen.is_available exOpen.boardState (2, 2) = false ∧
    exOpen.apply_move (2, 2) =
      { width := 3
        height := 3
        moveCount := 3
        boardState := 513
        loc1 := some (2, 2)
        loc2 := some (2, 2)
        activeIsP1 := false } ∧
    (exOpen.apply_move (2, 2)).is_available
      (exOpen.apply_move (2, 2)).boardState (2, 2) = true := by
  decide

/--
**C2 amended.** `apply_move` performs no legality check and silently
applies any move; when the location is in range and unoccupied it records
the location as the active player's position, marks it occupied, swaps
active and inactive players, and increments the move count.
-/
theorem apply_move_legal_effects (b : Board) (m : Loc)
    (h : b.is_available b.boardState m = true) :
    (b.apply_move m).location b.active = some m ∧
    (b.apply_move m).is_available (b.apply_move m).boardState m = false ∧
    (b.apply_move m).active = b.inactive ∧
    (b.apply_move m).inactive = b.active ∧
    (b.apply_move m).moveCount = b.moveCount + 1 := by
  have hbit : b.boardState.testBit (b.bitIdx m) = false := by
    unfold Board.is_available at h
    rw [and_one_eq_zero_iff_testBit] at h
    simp only [Bool.and_eq_true, Bool.not_eq_true'] at h
    exact h.2
  refine ⟨?_, ?_, ?_, ?_, rfl⟩
  · unfold Board.apply_move Board.location Board.active
    cases ha : b.activeIsP1 <;> simp [ha]
  · show (b.apply_move m).is_available (b.boardState + 2 ^ b.bitIdx m) m
      = false
    unfold Board.is_available
    have hw : (b.apply_move m).bitIdx m = b.bitIdx m := rfl
    rw [hw, and_one_eq_zero_iff_testBit,
      testBit_add_two_pow (b.bitIdx m) (b.bitIdx m) hbit]
    simp
  · unfold Board.active Board.inactive Board.apply_move
    cases ha : b.activeIsP1 <;> simp [ha]
  · unfold Board.active Board.inactive Board.apply_move
    cases ha : b.activeIsP1 <;> simp [ha]

/-- Witness for `apply_move_legal_effects` on a concrete legal move. -/
theorem apply_move_legal_effects_witness :
    exOpen.is_available exOpen.boardState (1, 2) = true ∧
    (exOpen.apply_move (1, 2)).location exOpen.active = some (1, 2) ∧
    (exOpen.apply_move (1, 2)).moveCount = exOpen.moveCount + 1 :=
  ⟨by decide, (apply_move_legal_effects exOpen (1, 2) (by decide)).1,
    (apply_move_legal_effects exOpen (1, 2) (by decide)).2.2.2.2⟩

/-- Membership in the source's `[(i, j) for j in range(width) for i in
range(height)]` list is exactly in-boundsness. -/
theorem mem_allCells (b : Board) (m : Loc) :
    m ∈ b.allCells ↔
      0 ≤ m.1 ∧ m.1 < (b.height : Int) ∧ 0 ≤ m.2 ∧ m.2 < (b.width : Int) := by
  unfold Board.allCells
  rw [List.mem_flatMap]
  constructor
  · rintro ⟨j, hj, hmem⟩
    rw [List.mem_map] at hmem
    obtain ⟨i, hi, heq⟩ := hmem
    rw [List.mem_range] at hj hi
    subst heq
    dsimp only
    omega
  · rintro ⟨h1, h2, h3, h4⟩
    refine ⟨m.2.toNat, ?_, ?_⟩
    · rw [List.mem_range]
      omega
    · rw [List.mem_map]
      refine ⟨m.1.toNat, by rw [List.mem_range]; omega, ?_⟩
      rw [Prod.ext_iff]
      dsimp only
      omega

/-- The all-cells list contains no duplicates. -/
theorem allCells_nodup (b : Board) : b.allCells.Nodup := by
  unfold Board.allCells
  rw [List.nodup_flatMap]
  constructor
  · intro j _
    apply List.Nodup.map _ (List.nodup_range _)
    intro i1 i2 h
    simpa using congrArg Prod.fst h
  · apply List.Nodup.pairwise_of_forall_ne (List.nodup_range _)
    intro a _ c _ hne
    simp only [Function.onFun, List.disjoint_left]
    intro x hx hx2
    simp only [List.mem_map, List.mem_range] at hx hx2
    obtain ⟨i1, _, rfl⟩ := hx
    obtain ⟨i2, _, heq⟩ := hx2
    apply hne
    have := congrArg Prod.snd heq
    simpa using this.symm

/--
**C10 counterexample.** The claim says `get_legal_moves` "returns every
unoccupied cell when the player has not yet placed".  On `exC10` — player
1 not yet placed, cell (0,0) already occupied — the source returns every
cell of the board unconditionally, including the occupied (0,0): the
unplaced branch never consults `board_state`.
-/
theorem get_legal_moves_unplaced_occupied :
    ((0 : Int), (0 : Int)) ∈ exC10.get_legal_moves (some .P1) ∧
    exC10.is_available exC10.boardState (0, 0) = false := by
  decide

/--
**C10 amended.** `get_legal_moves` defaults to the active player; for a
placed player it returns exactly the in-bounds unoccupied knight offsets
of the player's cell; for a player that has not yet placed it returns
every cell of the board regardless of occupancy — every cell except
player 1's location when querying player 2 while player 1 is placed (the
source would raise if player 1 were unplaced too, a case the engine never
exercises).
-/
theorem get_legal_moves_characterization (b : Board) (p : PlayerId) :
    (b.get_legal_moves none = b.get_legal_moves (some b.active)) ∧
    (∀ r c : Int, b.location p = some (r, c) →
      ∀ m : Loc, (m ∈ b.get_legal_moves (some p) ↔
        (∃ d ∈ Board.L_MOVES, m = (r + d.1, c + d.2)) ∧
          b.is_available b.boardState m = true)) ∧
    (b.location p = none → p = .P1 →
      ∀ m : Loc, (m ∈ b.get_legal_moves (some p) ↔
        0 ≤ m.1 ∧ m.1 < (b.height : Int) ∧ 0 ≤ m.2 ∧ m.2 < (b.width : Int))) ∧
    (b.location p = none → p = .P2 → ∀ l : Loc, b.loc1 = some l →
      ∀ m : Loc, (m ∈ b.get_legal_moves (some p) ↔
        (0 ≤ m.1 ∧ m.1 < (b.height : Int) ∧ 0 ≤ m.2 ∧ m.2 < (b.width : Int))
          ∧ m ≠ l)) := by
  refine ⟨rfl, ?_, ?_, ?_⟩
  · intro r c hloc m
    unfold Board.get_legal_moves
    simp only [Option.getD_some, hloc]
    rw [List.mem_filter, List.mem_map]
    constructor
    · rintro ⟨⟨d, hd, heq⟩, hav⟩
      exact ⟨⟨d, hd, heq.symm⟩, hav⟩
    · rintro ⟨⟨d, hd, heq⟩, hav⟩
      exact ⟨⟨d, hd, heq.symm⟩, hav⟩
  · intro hloc hp m
    subst hp
    unfold Board.get_legal_moves
    simp only [Option.getD_some, hloc]
    rw [if_neg (by decide)]
    exact mem_allCells b m
  · intro hloc hp l hl1 m
    subst hp
    unfold Board.get_legal_moves
    simp only [Option.getD_some, hloc, hl1]
    rw [if_pos trivial]
    rw [(allCells_nodup b).mem_erase_iff]
    rw [mem_allCells b m]
    tauto

/-- Witness for `get_legal_moves_characterization` at concrete inputs. -/
theorem get_legal_moves_characterization_witness :
    (exOpen.get_legal_moves none = exOpen.get_legal_moves (some exOpen.active)) ∧
    (((1 : Int), (2 : Int)) ∈ exOpen.get_legal_moves (some .P1) ↔
      (∃ d ∈ Board.L_MOVES, ((1 : Int), (2 : Int)) = ((0 : Int) + d.1, (0 : Int) + d.2)) ∧
        exOpen.is_available exOpen.boardState (1, 2) = true) ∧
    (((0 : Int), (0 : Int)) ∈ exC10.get_legal_moves (some .P1) ↔
      0 ≤ (0 : Int) ∧ (0 : Int) < (exC10.height : Int) ∧ 0 ≤ (0 : Int) ∧
        (0 : Int) < (exC10.width : Int)) :=
  ⟨(get_legal_moves_characterization exOpen .P1).1,
   (get_legal_moves_characterization exOpen .P1).2.1 0 0 rfl (1, 2),
   (get_legal_moves_characterization exC10 .P1).2.2.1 rfl rfl (0, 0)⟩

namespace Val

theorem le_eq_false {a b : Val} (h : le a b = false) : le b a = true := by
  rcases le_total a b with h' | h'
  · rw [h'] at h
    cases h
  · exact h'

theorem lt_eq_false_of_le {a b : Val} (h : le a b = true) : lt b a = false := by
  simp [lt, h]

theorem pmax_ninf_left (a : Val) : pmax ninf a = a := by
  cases a <;> rfl

theorem pmax_eq_left {a b : Val} (h : le b a = true) : pmax a b = a := by
  unfold pmax
  rw [if_pos h]

theorem pmax_eq_right {a b : Val} (h : le a b = true) : pmax a b = b := by
  unfold pmax
  split
  · exact le_antisymm h (by assumption)
  · rfl

theorem pmax_assoc (a b c : Val) : pmax (pmax a b) c = pmax a (pmax b c) := by
  apply le_antisymm
  · apply pmax_le
    · apply pmax_le
      · exact le_pmax_left _ _
      · exact le_trans (le_pmax_left b c) (le_pmax_right _ _)
    · exact le_trans (le_pmax_right b c) (le_pmax_right _ _)
  · apply pmax_le
    · exact le_trans (le_pmax_left a b) (le_pmax_left _ _)
    · apply pmax_le
      · exact le_trans (le_pmax_right a b) (le_pmax_left _ _)
      · exact le_pmax_right _ _

theorem pmax_mono {a b c d : Val} (h1 : le a c = true) (h2 : le b d = true) :
    le (pmax a b) (pmax c d) = true :=
  pmax_le (le_trans h1 (le_pmax_left _ _)) (le_trans h2 (le_pmax_right _ _))

theorem le_ninf_iff {a : Val} : le a ninf = true ↔ a = ninf := by
  cases a <;> simp [le]

theorem inf_le_iff {a : Val} : le inf a = true ↔ a = inf := by
  cases a <;> simp [le]

theorem ninf_lt_of_lt {a b : Val} (h : lt a b = true) : lt ninf b = true := by
  cases b
  · rw [lt, le] at h
    cases h
  · rfl
  · rfl

theorem lt_inf_of_lt {a b : Val} (h : lt a b = true) : lt a inf = true := by
  cases a
  · rfl
  · rfl
  · rw [lt] at h
    have : le b inf = true := by cases b <;> rfl
    rw [this] at h
    cases h

theorem le_pmin_iff {a b c : Val} :
    le a (pmin b c) = true ↔ le a b = true ∧ le a c = true := by
  unfold pmin
  split
  · rename_i hbc
    constructor
    · intro h
      exact ⟨h, le_trans h hbc⟩
    · exact fun h => h.1
  · rename_i hbc
    have hcb : le c b = true := le_eq_false (by simpa using hbc)
    constructor
    · intro h
      exact ⟨le_trans h hcb, h⟩
    · exact fun h => h.2

theorem pmin_le_left (a b : Val) : le (pmin a b) a = true := by
  unfold pmin
  split
  · exact le_refl a
  · rename_i h
    exact le_eq_false (by simpa using h)

theorem pmin_le_right (a b : Val) : le (pmin a b) b = true := by
  unfold pmin
  split
  · assumption
  · exact le_refl b

theorem le_pmin {a b c : Val} (h1 : le c a = true) (h2 : le c b = true) :
    le c (pmin a b) = true := le_pmin_iff.mpr ⟨h1, h2⟩

theorem pmin_cases (a b : Val) : pmin a b = a ∨ pmin a b = b := by
  unfold pmin
  split <;> simp

theorem pmin_inf_left (a : Val) : pmin inf a = a := by
  cases a <;> rfl

theorem pmin_inf_right (a : Val) : pmin a inf = a := by
  cases a <;> rfl

theorem pmin_eq_left {a b : Val} (h : le a b = true) : pmin a b = a := by
  unfold pmin
  rw [if_pos h]

theorem pmin_eq_right {a b : Val} (h : le b a = true) : pmin a b = b := by
  unfold pmin
  split
  · exact le_antisymm (by assumption) h
  · rfl

theorem pmin_assoc (a b c : Val) : pmin (pmin a b) c = pmin a (pmin b c) := by
  apply le_antisymm
  · apply le_pmin
    · exact le_trans (pmin_le_left _ _) (pmin_le_left a b)
    · apply le_pmin
      · exact le_trans (pmin_le_left _ _) (pmin_le_right a b)
      · exact pmin_le_right _ _
  · apply le_pmin
    · apply le_pmin
      · exact pmin_le_left _ _
      · exact le_trans (pmin_le_right _ _) (pmin_le_left b c)
    · exact le_trans (pmin_le_right _ _) (pmin_le_right b c)

theorem pmin_mono {a b c d : Val} (h1 : le a c = true) (h2 : le b d = true) :
    le (pmin a b) (pmin c d) = true :=
  le_pmin (le_trans (pmin_le_left _ _) h1) (le_trans (pmin_le_right _ _) h2)

theorem le_vmax_init (a : Val) (l : List Val) : le a (vmax a l) = true := by
  induction l generalizing a with
  | nil => exact le_refl a
  | cons x xs ih => exact le_trans (le_pmax_left a x) (ih (pmax a x))

theorem le_vmax_mem {x : Val} {l : List Val} (a : Val) (h : x ∈ l) :
    le x (vmax a l) = true := by
  induction l generalizing a with
  | nil => cases h
  | cons y ys ih =>
    rcases List.mem_cons.mp h with rfl | h'
    · exact le_trans (le_pmax_right a x) (le_vmax_init _ _)
    · exact ih _ h'

theorem vmax_le {a c : Val} {l : List Val} (h1 : le a c = true)
    (h2 : ∀ x ∈ l, le x c = true) : le (vmax a l) c = true := by
  induction l generalizing a with
  | nil => exact h1
  | cons y ys ih =>
    exact ih (pmax_le h1 (h2 y (List.mem_cons_self _ _)))
      (fun x hx => h2 x (List.mem_cons_of_mem _ hx))

theorem vmin_le_init (a : Val) (l : List Val) : le (vmin a l) a = true := by
  induction l generalizing a with
  | nil => exact le_refl a
  | cons x xs ih => exact le_trans (ih (pmin a x)) (pmin_le_left a x)

theorem vmin_le_mem {x : Val} {l : List Val} (a : Val) (h : x ∈ l) :
    le (vmin a l) x = true := by
  induction l generalizing a with
  | nil => cases h
  | cons y ys ih =>
    rcases List.mem_cons.mp h with rfl | h'
    · exact le_trans (vmin_le_init (pmin a x) ys) (pmin_le_right a x)
    · exact ih _ h'

theorem le_vmin {a c : Val} {l : List Val} (h1 : le c a = true)
    (h2 : ∀ x ∈ l, le c x = true) : le c (vmin a l) = true := by
  induction l generalizing a with
  | nil => exact h1
  | cons y ys ih =>
    exact ih (le_pmin h1 (h2 y (List.mem_cons_self _ _)))
      (fun x hx => h2 x (List.mem_cons_of_mem _ hx))

end Val

/-- A node whose returned value is exactly its true value is fail-soft in
any window. -/
theorem failSoft_refl (v α β : Val) : FailSoft v v α β :=
  ⟨fun _ => rfl, fun h => ⟨Val.le_refl v, h⟩, fun h => ⟨h, Val.le_refl v⟩⟩

/-- The value component of Python `max` on `(value, move)` pairs. -/
theorem pyMaxPair_fst (a b : Val × Loc) :
    (pyMaxPair a b).1 = Val.pmax a.1 b.1 := by
  unfold pyMaxPair Val.pmax
  rw [Val.lt]
  cases h : Val.le b.1 a.1 <;> simp

/-- The value component of Python `min` on `(value, move)` pairs. -/
theorem pyMinPair_fst (a b : Val × Loc) :
    (pyMinPair a b).1 = Val.pmin a.1 b.1 := by
  unfold pyMinPair Val.pmin
  rw [Val.lt]
  cases h : Val.le a.1 b.1 <;> simp

/--
Loop invariant of the maximizing branch of plain alpha-beta: entering the
move loop with accumulator value `acc.1`, true-prefix maximum `P` and
window `(pmax α0 acc.1, β)`, the returned value is a fail-soft bound for
the node value `vmax P (moves.map V)` in the original window `(α0, β)`.
`V` gives every child's true minimax value and `hchild` is the induction
hypothesis that the child search is fail-soft in any window.
-/
theorem abPlainLoop_max_fs
    (child : Board → Val → Val → Val) (g : Board) (V : Loc → Val)
    (hchild : ∀ m α β, Val.lt α β = true →
      FailSoft (V m) (child (g.forecast_move m) α β) α β)
    (β : Val) :
    ∀ (moves : List Loc) (acc : Val × Loc) (P α0 : Val),
      Val.lt α0 β = true →
      ((Val.le P α0 = true ∧ Val.le acc.1 α0 = true ∧
          Val.le P acc.1 = true) ∨
        (Val.lt α0 P = true ∧ acc.1 = P ∧ Val.lt P β = true)) →
      FailSoft (Val.vmax P (moves.map V))
        (abPlainLoop child g true moves acc (Val.pmax α0 acc.1) β).1 α0 β := by
  intro moves
  induction moves with
  | nil =>
    intro acc P α0 hαβ hinv
    show FailSoft P acc.1 α0 β
    rcases hinv with ⟨hPα, hrα, hPr⟩ | ⟨hαP, hrP, hPβ⟩
    · refine ⟨?_, fun _ => ⟨hPr, hrα⟩, ?_⟩
      · intro ⟨h1, _⟩
        rw [Val.lt_eq_false_of_le hPα] at h1
        cases h1
      · intro h3
        rw [Val.lt_eq_false_of_le (Val.le_trans h3 hPα)] at hαβ
        cases hαβ
    · refine ⟨fun _ => hrP, ?_, ?_⟩
      · intro h2
        rw [Val.lt_eq_false_of_le h2] at hαP
        cases hαP
      · intro h3
        rw [Val.lt_eq_false_of_le h3] at hPβ
        cases hPβ
  | cons mv rest ih =>
    intro acc P α0 hαβ hinv
    set A := Val.pmax α0 acc.1 with hAdef
    set w1 := child (g.forecast_move mv) A β with hw1def
    have hαβ' : Val.lt A β = true := by
      rcases hinv with ⟨hPα, hrα, hPr⟩ | ⟨hαP, hrP, hPβ⟩
      · rw [hAdef, Val.pmax_eq_left hrα]
        exact hαβ
      · rw [hAdef, hrP, Val.pmax_eq_right (Val.le_of_lt hαP)]
        exact hPβ
    have hc := hchild mv A β hαβ'
    rw [← hw1def] at hc
    simp only [abPlainLoop, if_true]
    rw [← hw1def]
    by_cases hbreak : Val.le β w1 = true
    · rw [if_pos hbreak]
      have hVβ : Val.le β (V mv) = true := by
        by_cases h1 : Val.le (V mv) A = true
        · have := (hc.2.1 h1).2
          rw [Val.lt_eq_false_of_le (Val.le_trans hbreak this)] at hαβ'
          cases hαβ'
        · by_cases h2 : Val.le β (V mv) = true
          · exact h2
          · have hm1 : Val.lt A (V mv) = true :=
              Val.not_le.mp (by simpa using h1)
            have hm2 : Val.lt (V mv) β = true :=
              Val.not_le.mp (by simpa using h2)
            rw [hc.1 ⟨hm1, hm2⟩] at hbreak
            rw [Val.lt_eq_false_of_le hbreak] at hm2
            cases hm2
      have hw1V : Val.le w1 (V mv) = true := (hc.2.2 hVβ).2
      have hVfull : Val.le (V mv)
          (Val.vmax P (List.map V (mv :: rest))) = true := by
        show Val.le (V mv) (Val.vmax (Val.pmax P (V mv)) (List.map V rest))
          = true
        exact Val.le_trans (Val.le_pmax_right _ _) (Val.le_vmax_init _ _)
      have hβfull : Val.le β (Val.vmax P (List.map V (mv :: rest))) = true :=
        Val.le_trans hVβ hVfull
      refine ⟨?_, ?_, ?_⟩
      · intro ⟨_, h1b⟩
        rw [Val.lt_eq_false_of_le hβfull] at h1b
        cases h1b
      · intro h2
        rw [Val.lt_eq_false_of_le (Val.le_trans hβfull h2)] at hαβ
        cases hαβ
      · intro _
        rw [pyMaxPair_fst]
        constructor
        · exact Val.le_trans hbreak (Val.le_pmax_right _ _)
        · apply Val.pmax_le
          · rcases hinv with ⟨hPα, hrα, hPr⟩ | ⟨hαP, hrP, hPβ⟩
            · exact Val.le_trans hrα
                (Val.le_trans (Val.le_of_lt hαβ) hβfull)
            · rw [hrP]
              show Val.le P (Val.vmax (Val.pmax P (V mv)) (List.map V rest))
                = true
              exact Val.le_trans (Val.le_pmax_left _ _) (Val.le_vmax_init _ _)
          · exact Val.le_trans hw1V hVfull
    · rw [if_neg hbreak]
      have harg : Val.pmax A w1 = Val.pmax α0 (pyMaxPair acc (w1, mv)).1 := by
        rw [pyMaxPair_fst, hAdef, Val.pmax_assoc]
      rw [harg]
      have hgoal : Val.vmax P (List.map V (mv :: rest)) =
          Val.vmax (Val.pmax P (V mv)) (List.map V rest) := rfl
      rw [hgoal]
      apply ih
      · exact hαβ
      rw [pyMaxPair_fst]
      by_cases h1 : Val.le (V mv) A = true
      · obtain ⟨hVw1, hw1α⟩ := hc.2.1 h1
        rcases hinv with ⟨hPα, hrα, hPr⟩ | ⟨hαP, hrP, hPβ⟩
        · have hAα0 : A = α0 := by rw [hAdef, Val.pmax_eq_left hrα]
          rw [hAα0] at h1 hw1α
          left
          exact ⟨Val.pmax_le hPα h1, Val.pmax_le hrα hw1α,
            Val.pmax_mono hPr hVw1⟩
        · have hAP : A = P := by
            rw [hAdef, hrP, Val.pmax_eq_right (Val.le_of_lt hαP)]
          rw [hAP] at h1 hw1α
          right
          rw [hrP]
          refine ⟨?_, ?_, ?_⟩
          · rw [Val.pmax_eq_left h1]
            exact hαP
          · rw [Val.pmax_eq_left h1, Val.pmax_eq_left hw1α]
          · rw [Val.pmax_eq_left h1]
            exact hPβ
      · have hVβ' : ¬ Val.le β (V mv) = true := fun h2 =>
          hbreak (hc.2.2 h2).1
        have hm1 : Val.lt A (V mv) = true :=
          Val.not_le.mp (by simpa using h1)
        have hm2 : Val.lt (V mv) β = true :=
          Val.not_le.mp (by simpa using hVβ')
        have hw1 := hc.1 ⟨hm1, hm2⟩
        rw [hw1]
        rcases hinv with ⟨hPα, hrα, hPr⟩ | ⟨hαP, hrP, hPβ⟩
        · have hAα0 : A = α0 := by rw [hAdef, Val.pmax_eq_left hrα]
          rw [hAα0] at hm1
          right
          have hPV : Val.le P (V mv) = true :=
            Val.le_of_lt (Val.lt_of_le_of_lt hPα hm1)
          have hrV : Val.le acc.1 (V mv) = true :=
            Val.le_of_lt (Val.lt_of_le_of_lt hrα hm1)
          rw [Val.pmax_eq_right hPV, Val.pmax_eq_right hrV]
          exact ⟨hm1, rfl, hm2⟩
        · have hAP : A = P := by
            rw [hAdef, hrP, Val.pmax_eq_right (Val.le_of_lt hαP)]
          rw [hAP] at hm1
          right
          rw [hrP]
          have hPV : Val.le P (V mv) = true := Val.le_of_lt hm1
          rw [Val.pmax_eq_right hPV]
          exact ⟨Val.lt_of_lt_of_le hαP hPV, rfl, hm2⟩

/--
Loop invariant of the minimizing branch of plain alpha-beta, mirror image
of `abPlainLoop_max_fs`: entering the move loop with accumulator value
`acc.1`, true-prefix minimum `P` and window `(α, pmin β0 acc.1)`, the
returned value is a fail-soft bound for `vmin P (moves.map V)` in the
original window `(α, β0)`.
-/
theorem abPlainLoop_min_fs
    (child : Board → Val → Val → Val) (g : Board) (V : Loc → Val)
    (hchild : ∀ m α β, Val.lt α β = true →
      FailSoft (V m) (child (g.forecast_move m) α β) α β)
    (α : Val) :
    ∀ (moves : List Loc) (acc : Val × Loc) (P β0 : Val),
      Val.lt α β0 = true →
      ((Val.le β0 P = true ∧ Val.le β0 acc.1 = true ∧
          Val.le acc.1 P = true) ∨
        (Val.lt P β0 = true ∧ acc.1 = P ∧ Val.lt α P = true)) →
      FailSoft (Val.vmin P (moves.map V))
        (abPlainLoop child g false moves acc α (Val.pmin β0 acc.1)).1 α β0 := by
  intro moves
  induction moves with
  | nil =>
    intro acc P β0 hαβ hinv
    show FailSoft P acc.1 α β0
    rcases hinv with ⟨hβP, hβr, hrP⟩ | ⟨hPβ, hrP, hαP⟩
    · refine ⟨?_, ?_, fun _ => ⟨hβr, hrP⟩⟩
      · intro ⟨_, h1⟩
        rw [Val.lt_eq_false_of_le hβP] at h1
        cases h1
      · intro h2
        rw [Val.lt_eq_false_of_le (Val.le_trans hβP h2)] at hαβ
        cases hαβ
    · refine ⟨fun _ => hrP, ?_, ?_⟩
      · intro h2
        rw [Val.lt_eq_false_of_le h2] at hαP
        cases hαP
      · intro h3
        rw [Val.lt_eq_false_of_le h3] at hPβ
        cases hPβ
  | cons mv rest ih =>
    intro acc P β0 hαβ hinv
    set B := Val.pmin β0 acc.1 with hBdef
    set w1 := child (g.forecast_move mv) α B with hw1def
    have hαβ' : Val.lt α B = true := by
      rcases hinv with ⟨hβP, hβr, hrP⟩ | ⟨hPβ, hrP, hαP⟩
      · rw [hBdef, Val.pmin_eq_left hβr]
        exact hαβ
      · rw [hBdef, hrP, Val.pmin_eq_right (Val.le_of_lt hPβ)]
        exact hαP
    have hc := hchild mv α B hαβ'
    rw [← hw1def] at hc
    simp only [abPlainLoop, Bool.false_eq_true, if_false]
    rw [← hw1def]
    by_cases hbreak : Val.le w1 α = true
    · rw [if_pos hbreak]
      have hVα : Val.le (V mv) α = true := by
        by_cases h1 : Val.le B (V mv) = true
        · have := (hc.2.2 h1).1
          rw [Val.lt_eq_false_of_le (Val.le_trans this hbreak)] at hαβ'
          cases hαβ'
        · by_cases h2 : Val.le (V mv) α = true
          · exact h2
          · have hm1 : Val.lt (V mv) B = true :=
              Val.not_le.mp (by simpa using h1)
            have hm2 : Val.lt α (V mv) = true :=
              Val.not_le.mp (by simpa using h2)
            rw [hc.1 ⟨hm2, hm1⟩] at hbreak
            rw [Val.lt_eq_false_of_le hbreak] at hm2
            cases hm2
      have hVw1 : Val.le (V mv) w1 = true := (hc.2.1 hVα).1
      have hfullV : Val.le (Val.vmin P (List.map V (mv :: rest)))
          (V mv) = true := by
        show Val.le (Val.vmin (Val.pmin P (V mv)) (List.map V rest)) (V mv)
          = true
        exact Val.le_trans (Val.vmin_le_init _ _) (Val.pmin_le_right _ _)
      have hfullα : Val.le (Val.vmin P (List.map V (mv :: rest))) α = true :=
        Val.le_trans hfullV hVα
      refine ⟨?_, ?_, ?_⟩
      · intro ⟨h1a, _⟩
        rw [Val.lt_eq_false_of_le hfullα] at h1a
        cases h1a
      · intro _
        rw [pyMinPair_fst]
        constructor
        · apply Val.le_pmin
          · rcases hinv with ⟨hβP, hβr, hrP⟩ | ⟨hPβ, hrP, hαP⟩
            · exact Val.le_trans
                (Val.le_of_lt (Val.lt_of_le_of_lt hfullα hαβ)) hβr
            · rw [hrP]
              show Val.le (Val.vmin (Val.pmin P (V mv)) (List.map V rest)) P
                = true
              exact Val.le_trans (Val.vmin_le_init _ _) (Val.pmin_le_left _ _)
          · exact Val.le_trans hfullV hVw1
        · exact Val.le_trans (Val.pmin_le_right _ _) hbreak
      · intro h3
        rw [Val.lt_eq_false_of_le (Val.le_trans h3 hfullα)] at hαβ
        cases hαβ
    · rw [if_neg hbreak]
      have harg : Val.pmin B w1 = Val.pmin β0 (pyMinPair acc (w1, mv)).1 := by
        rw [pyMinPair_fst, hBdef, Val.pmin_assoc]
      rw [harg]
      have hgoal : Val.vmin P (List.map V (mv :: rest)) =
          Val.vmin (Val.pmin P (V mv)) (List.map V rest) := rfl
      rw [hgoal]
      apply ih
      · exact hαβ
      rw [pyMinPair_fst]
      by_cases h1 : Val.le B (V mv) = true
      · obtain ⟨hBw1, hw1V⟩ := hc.2.2 h1
        rcases hinv with ⟨hβP, hβr, hrP⟩ | ⟨hPβ, hrP, hαP⟩
        · have hBβ0 : B = β0 := by rw [hBdef, Val.pmin_eq_left hβr]
          rw [hBβ0] at h1 hBw1
          left
          exact ⟨Val.le_pmin hβP h1, Val.le_pmin hβr hBw1,
            Val.pmin_mono hrP hw1V⟩
        · have hBP : B = P := by
            rw [hBdef, hrP, Val.pmin_eq_right (Val.le_of_lt hPβ)]
          rw [hBP] at h1 hBw1
          right
          rw [hrP]
          refine ⟨?_, ?_, ?_⟩
          · rw [Val.pmin_eq_left h1]
            exact hPβ
          · rw [Val.pmin_eq_left h1, Val.pmin_eq_left hBw1]
          · rw [Val.pmin_eq_left h1]
            exact hαP
      · have hVα' : ¬ Val.le (V mv) α = true := fun h2 =>
          hbreak (hc.2.1 h2).2
        have hm1 : Val.lt (V mv) B = true :=
          Val.not_le.mp (by simpa using h1)
        have hm2 : Val.lt α (V mv) = true :=
          Val.not_le.mp (by simpa using hVα')
        have hw1 := hc.1 ⟨hm2, hm1⟩
        rw [hw1]
        rcases hinv with ⟨hβP, hβr, hrP⟩ | ⟨hPβ, hrP, hαP⟩
        · have hBβ0 : B = β0 := by rw [hBdef, Val.pmin_eq_left hβr]
          rw [hBβ0] at hm1
          right
          have hVP : Val.le (V mv) P = true :=
            Val.le_of_lt (Val.lt_of_lt_of_le hm1 hβP)
          have hVr : Val.le (V mv) acc.1 = true :=
            Val.le_of_lt (Val.lt_of_lt_of_le hm1 hβr)
          rw [Val.pmin_eq_right hVP, Val.pmin_eq_right hVr]
          exact ⟨hm1, rfl, hm2⟩
        · have hBP : B = P := by
            rw [hBdef, hrP, Val.pmin_eq_right (Val.le_of_lt hPβ)]
          rw [hBP] at hm1
          right
          rw [hrP]
          have hVP : Val.le (V mv) P = true := Val.le_of_lt hm1
          rw [Val.pmin_eq_right hVP]
          exact ⟨Val.lt_of_le_of_lt hVP hPβ, rfl, hm2⟩

/-- Value of Python `max` folded over a list of `(value, move)` pairs. -/
theorem foldl_pyMaxPair_fst (xs : List (Val × Loc)) (a : Val × Loc) :
    (xs.foldl pyMaxPair a).1 = Val.vmax a.1 (xs.map (·.1)) := by
  induction xs generalizing a with
  | nil => rfl
  | cons y ys ih =>
    rw [List.foldl_cons, ih]
    show Val.vmax (pyMaxPair a y).1 _ = Val.vmax (Val.pmax a.1 y.1) _
    rw [pyMaxPair_fst]

/-- Value of Python `min` folded over a list of `(value, move)` pairs. -/
theorem foldl_pyMinPair_fst (xs : List (Val × Loc)) (a : Val × Loc) :
    (xs.foldl pyMinPair a).1 = Val.vmin a.1 (xs.map (·.1)) := by
  induction xs generalizing a with
  | nil => rfl
  | cons y ys ih =>
    rw [List.foldl_cons, ih]
    show Val.vmin (pyMinPair a y).1 _ = Val.vmin (Val.pmin a.1 y.1) _
    rw [pyMinPair_fst]

/-- A state whose utility for a registered player is 0 has legal moves:
`utility` returns `±inf` whenever the active player is stuck. -/
theorem legal_ne_nil_of_utility_zero (b : Board) (q : PlayerId)
    (h : b.utility (some q) = Val.fin 0) : b.get_legal_moves none ≠ [] := by
  intro hnil
  unfold Board.utility at h
  rw [if_pos (by rw [List.isEmpty_iff]; exact hnil)] at h
  by_cases h1 : q = b.inactive
  · rw [if_pos (by rw [h1])] at h
    cases h
  · rw [if_neg (by simpa using h1)] at h
    have h2 : q = b.active := by
      cases q <;> cases hb : b.activeIsP1 <;>
        simp_all [Board.active, Board.inactive]
    rw [if_pos (by rw [h2])] at h
    cases h

/--
Fail-soft correctness of alpha-beta without caching or move ordering with
respect to `minimax`: in any window `(α, β)` with `α < β`, at any depth,
for either layer type, the value returned by `alphabeta_nc` is a
fail-soft bound for the minimax value.
-/
theorem alphabeta_nc_failSoft (score : Board → PlayerId → Val)
    (agent : PlayerId) :
    ∀ (d : Nat) (g : Board) (α β : Val) (mx : Bool), Val.lt α β = true →
      FailSoft ((minimax score agent d g mx).1)
        ((alphabeta_nc score agent d g α β mx).1) α β := by
  intro d
  induction d with
  | zero =>
    intro g α β mx hαβ
    by_cases hu : g.utility (some agent) = Val.fin 0
    · have h1 : minimax score agent 0 g mx = (score g agent, noMove) := by
        simp only [minimax]
        rw [if_neg (by simpa using hu)]
      have h2 : alphabeta_nc score agent 0 g α β mx =
          (score g agent, noMove) := by
        simp only [alphabeta_nc]
        rw [if_neg (by simpa using hu)]
      rw [h1, h2]
      exact failSoft_refl _ _ _
    · have h1 : minimax score agent 0 g mx =
          (g.utility (some agent), noMove) := by
        simp only [minimax]
        rw [if_pos (by simpa using hu)]
      have h2 : alphabeta_nc score agent 0 g α β mx =
          (g.utility (some agent), noMove) := by
        simp only [alphabeta_nc]
        rw [if_pos (by simpa using hu)]
      rw [h1, h2]
      exact failSoft_refl _ _ _
  | succ d ihd =>
    intro g α β mx hαβ
    by_cases hu : g.utility (some agent) = Val.fin 0
    · obtain ⟨m0, ms, hmoves⟩ :=
        List.exists_cons_of_ne_nil (legal_ne_nil_of_utility_zero g agent hu)
      cases mx
      · -- minimizing layer
        have hmm : (minimax score agent (d + 1) g false).1 =
            Val.vmin ((minimax score agent d (g.forecast_move m0) true).1)
              (ms.map fun m =>
                (minimax score agent d (g.forecast_move m) true).1) := by
          simp only [minimax]
          rw [if_neg (by simpa using hu), hmoves]
          simp only [List.map_cons, Bool.not_false]
          rw [if_neg Bool.false_ne_true]
          rw [foldl_pyMinPair_fst, List.map_map]
          rfl
        have hab : (alphabeta_nc score agent (d + 1) g α β false).1 =
            (abPlainLoop
              (fun g' a b => (alphabeta_nc score agent d g' a b true).1)
              g false (m0 :: ms) (Val.inf, noMove) α β).1 := by
          simp only [alphabeta_nc]
          rw [if_neg (by simpa using hu), hmoves]
          simp only [Bool.not_false]
          rw [if_neg Bool.false_ne_true]
        rw [hmm, hab]
        have hloop := abPlainLoop_min_fs
          (fun g' a b => (alphabeta_nc score agent d g' a b true).1) g
          (fun m => (minimax score agent d (g.forecast_move m) true).1)
          (fun m a b h => ihd (g.forecast_move m) a b true h)
          α (m0 :: ms) (Val.inf, noMove) Val.inf β hαβ
          (Or.inl ⟨by cases β <;> rfl, by cases β <;> rfl, Val.le_refl _⟩)
        rw [show Val.pmin β (Val.inf, noMove).1 = β from Val.pmin_inf_right β]
          at hloop
        have hv : Val.vmin Val.inf
            (List.map (fun m =>
              (minimax score agent d (g.forecast_move m) true).1) (m0 :: ms)) =
            Val.vmin ((minimax score agent d (g.forecast_move m0) true).1)
              (ms.map fun m =>
                (minimax score agent d (g.forecast_move m) true).1) := by
          show Val.vmin (Val.pmin Val.inf _) _ = _
          rw [Val.pmin_inf_left]
        rw [hv] at hloop
        exact hloop
      · -- maximizing layer
        have hmm : (minimax score agent (d + 1) g true).1 =
            Val.vmax ((minimax score agent d (g.forecast_move m0) false).1)
              (ms.map fun m =>
                (minimax score agent d (g.forecast_move m) false).1) := by
          simp only [minimax]
          rw [if_neg (by simpa using hu), hmoves]
          simp only [List.map_cons, Bool.not_true, if_true]
          rw [foldl_pyMaxPair_fst, List.map_map]
          rfl
        have hab : (alphabeta_nc score agent (d + 1) g α β true).1 =
            (abPlainLoop
              (fun g' a b => (alphabeta_nc score agent d g' a b false).1)
              g true (m0 :: ms) (Val.ninf, noMove) α β).1 := by
          simp only [alphabeta_nc]
          rw [if_neg (by simpa using hu), hmoves]
          simp only [Bool.not_true, if_true]
        rw [hmm, hab]
        have hloop := abPlainLoop_max_fs
          (fun g' a b => (alphabeta_nc score agent d g' a b false).1) g
          (fun m => (minimax score agent d (g.forecast_move m) false).1)
          (fun m a b h => ihd (g.forecast_move m) a b false h)
          β (m0 :: ms) (Val.ninf, noMove) Val.ninf α hαβ
          (Or.inl ⟨rfl, rfl, rfl⟩)
        have hv : Val.vmax Val.ninf
            (List.map (fun m =>
              (minimax score agent d (g.forecast_move m) false).1) (m0 :: ms)) =
            Val.vmax ((minimax score agent d (g.forecast_move m0) false).1)
              (ms.map fun m =>
                (minimax score agent d (g.forecast_move m) false).1) := by
          show Val.vmax (Val.pmax Val.ninf _) _ = _
          rw [Val.pmax_ninf_left]
        rw [hv] at hloop
        exact hloop
    · have h1 : minimax score agent (d + 1) g mx =
          (g.utility (some agent), noMove) := by
        simp only [minimax]
        rw [if_pos (by simpa using hu)]
      have h2 : alphabeta_nc score agent (d + 1) g α β mx =
          (g.utility (some agent), noMove) := by
        simp only [alphabeta_nc]
        rw [if_pos (by simpa using hu)]
      rw [h1, h2]
      exact failSoft_refl _ _ _

/--
**C1 counterexample.** The claim asserts `minimax` and `alphabeta` — the
latter with its transposition caching and move ordering as implemented —
return equal values for every state and depth.  On `exC1` at depth 7
(maximizing, full window, starting with an empty cache as on a fresh
agent's first search, with the repository's `improved_score` evaluation)
minimax returns 0 while the cached alpha-beta returns -1: a value cached
after a beta-cutoff (a mere lower bound) is reused as exact at a
transposed node, and the corrupted value reaches the root.
-/
theorem alphabeta_cached_ne_minimax :
    (minimax improved_score .P1 7 exC1 true).1 = Val.fin 0 ∧
    ((alphabeta improved_score .P1 7 exC1 Val.ninf Val.inf true []).1).1 =
      Val.fin (-1) := by
  constructor
  · decide
  · decide

/--
**C1 amended.** For every board state, depth and maximizing flag, and any
score function and agent, `minimax` and alpha-beta *with caching and move
ordering disabled* (`alphabeta_nc`, the spec's `useMoveReordering = false`
configuration) return equal values when alpha-beta is called with the
full window `(-inf, +inf)`: pruning alone never changes the value.  (With
the transposition caching as implemented the values can differ — see
`alphabeta_cached_ne_minimax`.)
-/
theorem alphabeta_nc_eq_minimax (score : Board → PlayerId → Val)
    (agent : PlayerId) (d : Nat) (g : Board) (mx : Bool) :
    (alphabeta_nc score agent d g Val.ninf Val.inf mx).1 =
      (minimax score agent d g mx).1 := by
  obtain ⟨h1, h2, h3⟩ :=
    alphabeta_nc_failSoft score agent d g Val.ninf Val.inf mx rfl
  cases hv : (minimax score agent d g mx).1 with
  | ninf =>
    rw [hv] at h2
    exact Val.le_ninf_iff.mp (h2 rfl).2
  | fin n =>
    rw [hv] at h1
    exact h1 ⟨rfl, rfl⟩
  | inf =>
    rw [hv] at h3
    exact Val.inf_le_iff.mp (h3 rfl).1

/-- Under a timer that never reaches the threshold, evaluating minimax
children never raises. -/
theorem mmChildrenT_ok
    (f : Board → Bool → Nat → Except Unit (Val × Loc) × Nat) (g : Board)
    (mx : Bool)
    (hf : ∀ g1 mx1 n1, ∃ r n2, f g1 mx1 n1 = (.ok r, n2)) :
    ∀ (l : List Loc) (n : Nat), ∃ rs n2,
      mmChildrenT f g mx l n = (.ok rs, n2) := by
  intro l
  induction l with
  | nil => exact fun n => ⟨[], n, rfl⟩
  | cons m rest ih =>
    intro n
    obtain ⟨r, n1, hr⟩ := hf (g.forecast_move m) mx n
    obtain ⟨tail, n2, ht⟩ := ih n1
    refine ⟨(r.1, m) :: tail, n2, ?_⟩
    rw [mmChildrenT, hr]
    dsimp only
    rw [ht]

/-- Under a timer that never reaches the threshold, `minimax` never
raises `Timeout`. -/
theorem minimaxT_ok (score : Board → PlayerId → Val) (agent : PlayerId) :
    ∀ (d : Nat) (g : Board) (mx : Bool) (n : Nat), ∃ r n1,
      minimaxT score agent (fun _ => true) d g mx n = (.ok r, n1) := by
  intro d
  induction d with
  | zero =>
    intro g mx n
    rw [minimaxT]
    dsimp only
    rw [if_neg (fun h => Bool.noConfusion h)]
    by_cases hu : g.utility (some agent) = Val.fin 0
    · exact ⟨(score g agent, noMove), n + 1, by rw [if_neg (by simpa using hu)]⟩
    · exact ⟨(g.utility (some agent), noMove), n + 1,
        by rw [if_pos (by simpa using hu)]⟩
  | succ d ihd =>
    intro g mx n
    rw [minimaxT]
    dsimp only
    rw [if_neg (fun h => Bool.noConfusion h)]
    by_cases hu : g.utility (some agent) = Val.fin 0
    · rw [if_neg (by simpa using hu)]
      obtain ⟨rs, n2, hrs⟩ := mmChildrenT_ok
        (minimaxT score agent (fun _ => true) d) g (!mx)
        (fun g1 mx1 n1 => ihd g1 mx1 n1) (g.get_legal_moves none) (n + 1)
      rw [hrs]
      cases rs with
      | nil => exact ⟨_, n2, rfl⟩
      | cons x xs => exact ⟨_, n2, rfl⟩
    · exact ⟨(g.utility (some agent), noMove), n + 1,
        by rw [if_pos (by simpa using hu)]⟩

/-- Under a timer that never reaches the threshold, the alpha-beta move
loop never raises. -/
theorem abLoopT_ok
    (child : Board → Val → Val → Cache → Nat →
      Except Unit (Val × Loc) × Cache × Nat)
    (g : Board) (dM1 : Int) (mx : Bool)
    (hc : ∀ g1 a b c n, ∃ r c1 n1, child g1 a b c n = (.ok r, c1, n1)) :
    ∀ (l : List (Loc × Val × Int)) (acc : Val × Loc) (α β : Val)
      (cache : Cache) (n : Nat), ∃ r c1 n1,
      abLoopT child g dM1 mx l acc α β cache n = (.ok r, c1, n1) := by
  intro l
  induction l with
  | nil => exact fun acc α β cache n => ⟨acc, cache, n, rfl⟩
  | cons e rest ih =>
    intro acc α β cache n
    obtain ⟨move, cv, cd⟩ := e
    rw [abLoopT]
    by_cases hhit : dM1 ≤ cd
    · rw [if_pos hhit]
      dsimp only
      cases mx
      · simp only [Bool.false_eq_true, if_false]
        by_cases hbr : Val.le cv α = true
        · exact ⟨_, cache, n, by rw [if_pos hbr]⟩
        · obtain ⟨r1, c1, n1, h1⟩ := ih _ α (Val.pmin β cv) cache n
          exact ⟨r1, c1, n1, by rw [if_neg hbr]; exact h1⟩
      · rw [if_pos rfl, if_pos rfl]
        by_cases hbr : Val.le β cv = true
        · exact ⟨_, cache, n, by rw [if_pos hbr]⟩
        · obtain ⟨r1, c1, n1, h1⟩ := ih _ (Val.pmax α cv) β cache n
          exact ⟨r1, c1, n1, by rw [if_neg hbr]; exact h1⟩
    · rw [if_neg hhit]
      obtain ⟨r0, c0, n0, h0⟩ := hc (g.forecast_move move) α β cache n
      rw [h0]
      dsimp only
      cases mx
      · simp only [Bool.false_eq_true, if_false]
        by_cases hbr : Val.le r0.1 α = true
        · exact ⟨_, c0, n0, by rw [if_pos hbr]⟩
        · obtain ⟨r1, c1, n1, h1⟩ := ih _ α (Val.pmin β r0.1) c0 n0
          exact ⟨r1, c1, n1, by rw [if_neg hbr]; exact h1⟩
      · rw [if_pos rfl, if_pos rfl]
        by_cases hbr : Val.le β r0.1 = true
        · exact ⟨_, c0, n0, by rw [if_pos hbr]⟩
        · obtain ⟨r1, c1, n1, h1⟩ := ih _ (Val.pmax α r0.1) β c0 n0
          exact ⟨r1, c1, n1, by rw [if_neg hbr]; exact h1⟩

/-- Under a timer that never reaches the threshold, `alphabeta` never
raises `Timeout`. -/
theorem alphabetaT_ok (score : Board → PlayerId → Val) (agent : PlayerId) :
    ∀ (d : Nat) (g : Board) (α β : Val) (mx : Bool) (cache : Cache)
      (n : Nat), ∃ r c1 n1,
      alphabetaT score agent (fun _ => true) d g α β mx cache n =
        (.ok r, c1, n1) := by
  intro d
  induction d with
  | zero =>
    intro g α β mx cache n
    rw [alphabetaT]
    dsimp only
    rw [if_neg (fun h => Bool.noConfusion h)]
    by_cases hu : g.utility (some agent) = Val.fin 0
    · rw [if_neg (by simpa using hu)]
      exact ⟨_, _, n + 1, rfl⟩
    · rw [if_pos (by simpa using hu)]
      exact ⟨_, _, n + 1, rfl⟩
  | succ d ihd =>
    intro g α β mx cache n
    rw [alphabetaT]
    dsimp only
    rw [if_neg (fun h => Bool.noConfusion h)]
    by_cases hu : g.utility (some agent) = Val.fin 0
    · rw [if_neg (by simpa using hu)]
      obtain ⟨r, c1, n1, h1⟩ := abLoopT_ok
        (fun g1 a b c m => alphabetaT score agent (fun _ => true) d g1 a b
          (!mx) c m)
        g (d : Int) mx (fun g1 a b c m => ihd g1 a b (!mx) c m)
        (Board.get_sorted_moves cache g mx)
        (if mx then Val.ninf else Val.inf, noMove) α β cache (n + 1)
      rw [h1]
      exact ⟨r, _, n1, rfl⟩
    · rw [if_pos (by simpa using hu)]
      exact ⟨_, _, n + 1, rfl⟩

/-- Under a timer that never reaches the threshold, the selected search
method never raises. -/
theorem methodFn_ok (cfg : AgentCfg) (g : Board) (depth : Nat)
    (cache : Cache) (n : Nat) : ∃ r c1 n1,
    methodFn cfg (fun _ => true) g depth cache n = (.ok r, c1, n1) := by
  unfold methodFn
  by_cases hab : cfg.methodAB = true
  · rw [if_pos hab]
    exact alphabetaT_ok cfg.score cfg.agent depth g Val.ninf Val.inf true
      cache n
  · rw [if_neg hab]
    obtain ⟨r, n1, h1⟩ := minimaxT_ok cfg.score cfg.agent depth g true n
    rw [h1]
    exact ⟨r, cache, n1, rfl⟩

/-- With a timer that never reaches the threshold, the deepening loop
never exits: no depth bound and no proven-win early exit exist in the
source; only `Timeout` ends it. -/
theorem deepen_never_returns (cfg : AgentCfg) (g : Board) :
    ∀ (fuel : Nat) (best : Val × Loc) (depth : Nat) (cache : Cache)
      (n : Nat),
      deepen cfg (fun _ => true) g fuel best depth cache n = none := by
  intro fuel
  induction fuel with
  | zero => intro best depth cache n; rfl
  | succ fuel ih =>
    intro best depth cache n
    rw [deepen]
    obtain ⟨r, c1, n1, h1⟩ := methodFn_ok cfg g depth cache n
    rw [h1]
    exact ih _ _ _ _

/--
**C3 amended.** When iterative deepening is enabled and the timer never
falls below the abort threshold, the deepening loop of `get_move` never
terminates: it runs depths 1, 2, 3, ... without any bound — in
particular past `width × height − move count` — and has no early exit
when a completed depth returns `+inf`; the loop is left only through the
`Timeout` exception.  Formally, for every iteration budget the modelled
loop is still running.
-/
theorem get_move_never_timeout_diverges (cfg : AgentCfg)
    (hit : cfg.iterative = true) (g : Board) (lm : List Loc)
    (hne : lm ≠ []) (cache : Cache) (n fuel : Nat) :
    get_move cfg (fun _ => true) fuel g lm cache n = none := by
  unfold get_move
  rw [if_neg (by simpa [List.isEmpty_iff] using hne)]
  dsimp only
  rw [if_pos hit, deepen_never_returns]

/-- Witness for `get_move_never_timeout_diverges` on the concrete agent
and position of the C3 scenario. -/
theorem get_move_never_timeout_diverges_witness :
    cfgAB.iterative = true ∧ exC3.get_legal_moves none ≠ [] ∧
    get_move cfgAB (fun _ => true) 3 exC3 (exC3.get_legal_moves none)
      [] 0 = none :=
  ⟨rfl, by decide,
    get_move_never_timeout_diverges cfgAB rfl exC3 _ (by decide) [] 0 3⟩

/--
**C3 counterexample.** The claim says the deepening loop terminates,
never exceeds `width × height − moves played` (here 5) and exits as soon
as a completed depth returns `+inf`.  On `exC3` the depth-1 search
already proves a win (`+inf`), yet with a timer that never falls below
the threshold the loop is still running after 10 iterations (depths
1..10, beyond the claimed bound).
-/
theorem deepening_ignores_bound_and_win :
    (minimax improved_score .P1 1 exC3 true).1 = Val.inf ∧
    exC3.width * exC3.height - exC3.moveCount = 5 ∧
    (get_move cfgAB (fun _ => true) 10 exC3 (exC3.get_legal_moves none)
      [] 0).isNone = true := by
  decide

/-- Every legal move has nonnegative coordinates (knight targets are
filtered by `is_available`, unplaced-player moves come from the board's
cell list). -/
theorem legal_moves_nonneg (b : Board) (p : Option PlayerId) (m : Loc)
    (hm : m ∈ b.get_legal_moves p) : 0 ≤ m.1 ∧ 0 ≤ m.2 := by
  unfold Board.get_legal_moves at hm
  dsimp only at hm
  cases hloc : b.location (p.getD b.active) with
  | none =>
    rw [hloc] at hm
    have hcells : m ∈ b.allCells := by
      by_cases hp : p.getD b.active = .P2
      · rw [if_pos hp] at hm
        cases hl1 : b.loc1 with
        | none => rw [hl1] at hm; exact hm
        | some l =>
          rw [hl1] at hm
          exact List.erase_subset l b.allCells hm
      · rw [if_neg hp] at hm
        exact hm
    obtain ⟨h1, _, h3, _⟩ := (mem_allCells b m).mp hcells
    exact ⟨h1, h3⟩
  | some rc =>
    obtain ⟨r, c⟩ := rc
    rw [hloc] at hm
    have hav := (List.mem_filter.mp hm).2
    unfold Board.is_available at hav
    simp only [Bool.and_eq_true, decide_eq_true_eq] at hav
    exact ⟨hav.1.1.1.1, hav.1.1.2⟩

/-- With a timer already below the threshold, the selected search method
raises `Timeout` at its first check, leaving the cache untouched. -/
theorem methodFn_false_err (cfg : AgentCfg) (g : Board) (depth : Nat)
    (cache : Cache) (n : Nat) :
    methodFn cfg (fun _ => false) g depth cache n =
      (.error (), cache, n) := by
  unfold methodFn
  by_cases hab : cfg.methodAB = true
  · rw [if_pos hab]
    cases depth <;> (rw [alphabetaT]; dsimp only; rw [if_pos rfl])
  · rw [if_neg hab]
    cases depth <;> (rw [minimaxT]; dsimp only; rw [if_pos rfl])

/--
**C6.** For every board state with at least one legal move for the
active player, if the timer is already at or below the abort threshold
when `get_move` is called, `get_move` still returns a legal move — the
pre-seeded fallback, which is the first enumerated legal move — and never
the no-move sentinel `(-1, -1)`.
-/
theorem get_move_zero_time_returns_first (cfg : AgentCfg) (g : Board)
    (cache : Cache) (n fuel : Nat) (hne : g.get_legal_moves none ≠ []) :
    get_move cfg (fun _ => false) (fuel + 1) g (g.get_legal_moves none)
        cache n =
      some ((g.get_legal_moves none).headD noMove, cache, n) ∧
    (g.get_legal_moves none).headD noMove ∈ g.get_legal_moves none ∧
    (g.get_legal_moves none).headD noMove ≠ noMove := by
  obtain ⟨m0, ms, hlm⟩ := List.exists_cons_of_ne_nil hne
  have hmem : (g.get_legal_moves none).headD noMove ∈
      g.get_legal_moves none := by
    rw [hlm]
    exact List.mem_cons_self _ _
  refine ⟨?_, hmem, ?_⟩
  · unfold get_move
    rw [if_neg (by simpa [List.isEmpty_iff] using hne)]
    dsimp only
    by_cases hit : cfg.iterative = true
    · rw [if_pos hit, deepen, methodFn_false_err]
    · rw [if_neg hit, methodFn_false_err]
  · intro h
    obtain ⟨h1, _⟩ := legal_moves_nonneg g none _ hmem
    rw [h] at h1
    norm_num [noMove] at h1

/-- Witness for `get_move_zero_time_returns_first` on a concrete
position. -/
theorem get_move_zero_time_returns_first_witness :
    exOpen.get_legal_moves none ≠ [] ∧
    get_move cfgAB (fun _ => false) 1 exOpen (exOpen.get_legal_moves none)
        [] 0 =
      some ((exOpen.get_legal_moves none).headD noMove, [], 0) ∧
    (exOpen.get_legal_moves none).headD noMove ≠ noMove :=
  ⟨by decide,
    (get_move_zero_time_returns_first cfgAB exOpen [] 0 0 (by decide)).1,
    (get_move_zero_time_returns_first cfgAB exOpen [] 0 0 (by decide)).2.2⟩

/-- The alpha-beta move loop only prepends cache entries: the cache on
exit has the entry cache as a suffix, whether or not a `Timeout`
unwound it. -/
theorem abLoopT_cache_suffix
    (child : Board → Val → Val → Cache → Nat →
      Except Unit (Val × Loc) × Cache × Nat)
    (g : Board) (dM1 : Int) (mx : Bool)
    (hc : ∀ g1 a b c n, ∃ pre, (child g1 a b c n).2.1 = pre ++ c) :
    ∀ (l : List (Loc × Val × Int)) (acc : Val × Loc) (α β : Val)
      (cache : Cache) (n : Nat), ∃ pre,
      (abLoopT child g dM1 mx l acc α β cache n).2.1 = pre ++ cache := by
  intro l
  induction l with
  | nil => exact fun acc α β cache n => ⟨[], rfl⟩
  | cons e rest ih =>
    intro acc α β cache n
    obtain ⟨move, cv, cd⟩ := e
    rw [abLoopT]
    by_cases hhit : dM1 ≤ cd
    · rw [if_pos hhit]
      dsimp only
      cases mx
      · simp only [Bool.false_eq_true, if_false]
        by_cases hbr : Val.le cv α = true
        · rw [if_pos hbr]
          exact ⟨[], rfl⟩
        · rw [if_neg hbr]
          exact ih _ _ _ _ _
      · rw [if_pos rfl, if_pos rfl]
        by_cases hbr : Val.le β cv = true
        · rw [if_pos hbr]
          exact ⟨[], rfl⟩
        · rw [if_neg hbr]
          exact ih _ _ _ _ _
    · rw [if_neg hhit]
      obtain ⟨pre0, hpre0⟩ := hc (g.forecast_move move) α β cache n
      rcases hres : child (g.forecast_move move) α β cache n with ⟨e, c0, n0⟩
      rw [hres] at hpre0
      cases e with
      | error e => exact ⟨pre0, hpre0⟩
      | ok r =>
        dsimp only
        cases mx
        · simp only [Bool.false_eq_true, if_false]
          by_cases hbr : Val.le r.1 α = true
          · rw [if_pos hbr]
            exact ⟨pre0, hpre0⟩
          · rw [if_neg hbr]
            obtain ⟨pre1, hpre1⟩ := ih (if false = true then
              pyMaxPair acc (r.1, move) else pyMinPair acc (r.1, move))
              α (Val.pmin β r.1) c0 n0
            refine ⟨pre1 ++ pre0, ?_⟩
            rw [List.append_assoc, ← hpre0]
            simpa using hpre1
        · rw [if_pos rfl, if_pos rfl]
          by_cases hbr : Val.le β r.1 = true
          · rw [if_pos hbr]
            exact ⟨pre0, hpre0⟩
          · rw [if_neg hbr]
            obtain ⟨pre1, hpre1⟩ := ih (pyMaxPair acc (r.1, move))
              (Val.pmax α r.1) β c0 n0
            refine ⟨pre1 ++ pre0, ?_⟩
            rw [List.append_assoc, ← hpre0]
            exact hpre1

/-- `alphabeta` only prepends cache entries. -/
theorem alphabetaT_cache_suffix (score : Board → PlayerId → Val)
    (agent : PlayerId) (ok : Nat → Bool) :
    ∀ (d : Nat) (g : Board) (α β : Val) (mx : Bool) (cache : Cache)
      (n : Nat), ∃ pre,
      (alphabetaT score agent ok d g α β mx cache n).2.1 = pre ++ cache := by
  intro d
  induction d with
  | zero =>
    intro g α β mx cache n
    rw [alphabetaT]
    by_cases hok : ok n = false
    · rw [if_pos hok]
      exact ⟨[], rfl⟩
    · rw [if_neg hok]
      dsimp only
      by_cases hu : g.utility (some agent) = Val.fin 0
      · rw [if_neg (by simpa using hu)]
        exact ⟨[(g.get_key, score g agent, (0 : Int))], rfl⟩
      · rw [if_pos (by simpa using hu)]
        exact ⟨[(g.get_key, g.utility (some agent), (0 : Int))], rfl⟩
  | succ d ihd =>
    intro g α β mx cache n
    rw [alphabetaT]
    by_cases hok : ok n = false
    · rw [if_pos hok]
      exact ⟨[], rfl⟩
    · rw [if_neg hok]
      dsimp only
      by_cases hu : g.utility (some agent) = Val.fin 0
      · rw [if_neg (by simpa using hu)]
        obtain ⟨pre0, hpre0⟩ := abLoopT_cache_suffix
          (fun g1 a b c m => alphabetaT score agent ok d g1 a b (!mx) c m)
          g (d : Int) mx (fun g1 a b c m => ihd g1 a b (!mx) c m)
          (Board.get_sorted_moves cache g mx)
          (if mx then Val.ninf else Val.inf, noMove) α β cache (n + 1)
        rcases hres : abLoopT
            (fun g1 a b c m => alphabetaT score agent ok d g1 a b (!mx) c m)
            g (d : Int) mx (Board.get_sorted_moves cache g mx)
            (if mx then Val.ninf else Val.inf, noMove) α β cache (n + 1)
          with ⟨e, c0, n0⟩
        rw [hres] at hpre0
        cases e with
        | error e => exact ⟨pre0, hpre0⟩
        | ok r => exact ⟨(g.get_key, r.1, ((d : Int) + 1)) :: pre0,
            by simpa [Cache.insert] using hpre0⟩
      · rw [if_pos (by simpa using hu)]
        exact ⟨[(g.get_key, g.utility (some agent), ((d : Int) + 1))],
          by rfl⟩

/-- The selected search method only prepends cache entries. -/
theorem methodFn_cache_suffix (cfg : AgentCfg) (ok : Nat → Bool)
    (g : Board) (depth : Nat) (cache : Cache) (n : Nat) :
    ∃ pre, (methodFn cfg ok g depth cache n).2.1 = pre ++ cache := by
  unfold methodFn
  by_cases hab : cfg.methodAB = true
  · rw [if_pos hab]
    exact alphabetaT_cache_suffix cfg.score cfg.agent ok depth g
      Val.ninf Val.inf true cache n
  · rw [if_neg hab]
    rcases minimaxT cfg.score cfg.agent ok depth g true n with ⟨e, n1⟩
    cases e <;> exact ⟨[], rfl⟩

/-- The deepening loop only prepends cache entries. -/
theorem deepen_cache_suffix (cfg : AgentCfg) (ok : Nat → Bool) (g : Board) :
    ∀ (fuel : Nat) (best : Val × Loc) (depth : Nat) (cache : Cache)
      (n : Nat) (b : (Val × Loc)) (c1 : Cache) (n1 : Nat),
      deepen cfg ok g fuel best depth cache n = some (b, c1, n1) →
      ∃ pre, c1 = pre ++ cache := by
  intro fuel
  induction fuel with
  | zero => intro best depth cache n b c1 n1 h; cases h
  | succ fuel ih =>
    intro best depth cache n b c1 n1 h
    rw [deepen] at h
    obtain ⟨pre0, hpre0⟩ := methodFn_cache_suffix cfg ok g depth cache n
    rcases hres : methodFn cfg ok g depth cache n with ⟨e, c0, n0⟩
    rw [hres] at h hpre0
    cases e with
    | error e =>
      obtain ⟨rfl, rfl, rfl⟩ : b = best ∧ c1 = c0 ∧ n1 = n0 := by
        simpa using h.symm
      exact ⟨pre0, hpre0⟩
    | ok r =>
      obtain ⟨pre1, hpre1⟩ := ih _ _ _ _ _ _ _ h
      exact ⟨pre1 ++ pre0, by rw [List.append_assoc, ← hpre0]; exact hpre1⟩

/--
**C4 amended.** The transposition table is never cleared: `get_move`
performs no new-game detection and no reset — the cache only ever grows
(every cache it returns has the incoming cache as a suffix), so entries
written during one call remain available to all later calls, including
calls whose board reports a lower move count.
-/
theorem get_move_cache_monotone (cfg : AgentCfg) (ok : Nat → Bool)
    (fuel : Nat) (g : Board) (lm : List Loc) (cache : Cache) (n : Nat)
    (m : Loc) (c1 : Cache) (n1 : Nat)
    (h : get_move cfg ok fuel g lm cache n = some (m, c1, n1)) :
    ∃ pre, c1 = pre ++ cache := by
  unfold get_move at h
  by_cases hlm : lm.isEmpty
  · rw [if_pos hlm] at h
    obtain ⟨rfl, rfl, rfl⟩ : m = noMove ∧ c1 = cache ∧ n1 = n := by
      simpa using h.symm
    exact ⟨[], rfl⟩
  · rw [if_neg hlm] at h
    dsimp only at h
    by_cases hit : cfg.iterative = true
    · rw [if_pos hit] at h
      rcases hres : deepen cfg ok g fuel
          (cfg.score (g.forecast_move (lm.headD noMove)) cfg.agent,
            lm.headD noMove) 1 cache n with _ | ⟨b, c0, n0⟩
      · rw [hres] at h
        cases h
      · rw [hres] at h
        obtain ⟨rfl, rfl, rfl⟩ : m = b.2 ∧ c1 = c0 ∧ n1 = n0 := by
          simpa using h.symm
        exact deepen_cache_suffix cfg ok g fuel _ 1 cache n b c1 n1 hres
    · rw [if_neg hit] at h
      obtain ⟨pre0, hpre0⟩ := methodFn_cache_suffix cfg ok g
        cfg.search_depth cache n
      rcases hres : methodFn cfg ok g cfg.search_depth cache n
        with ⟨e, c0, n0⟩
      rw [hres] at h hpre0
      cases e with
      | error e =>
        obtain ⟨rfl, rfl, rfl⟩ :
            m = (lm.headD noMove) ∧ c1 = c0 ∧ n1 = n0 := by
          simpa using h.symm
        exact ⟨pre0, hpre0⟩
      | ok r =>
        obtain ⟨rfl, rfl, rfl⟩ : m = r.2 ∧ c1 = c0 ∧ n1 = n0 := by
          simpa using h.symm
        exact ⟨pre0, hpre0⟩

/-- Witness for `get_move_cache_monotone`: the first idempotence-scenario
call grows the cache of the fresh agent. -/
theorem get_move_cache_monotone_witness :
    exC7call1 = some ((0, 2), exC7cache1, 9) ∧
    ∃ pre, exC7cache1 = pre ++ [] :=
  ⟨by decide,
    get_move_cache_monotone cfgAB (fun n => decide (n < 9)) 5 exC7
      (exC7.get_legal_moves none) [] 0 (0, 2) exC7cache1 9 (by decide)⟩

/--
**C4 counterexample.** The claim says the transposition table is cleared
whenever a `get_move` call reports a total move count lower than the
previous call's.  `exC4call2` runs `get_move` on a board of move count 2
after `exC7call1` ran on a board of move count 6 — the claimed new-game
signal — yet the cache it returns still contains the entry for `exC7`'s
key written by the previous call: no reset exists in `get_move`
(`self.cache = dict()` appears only in `__init__`).
-/
theorem cache_not_reset_on_new_game :
    exOpen.moveCount < exC7.moveCount ∧
    exC4call2.isSome = true ∧
    (Cache.get? exC4cache2 exC7.get_key).isSome = true := by
  decide

/--
**C7 counterexample.** The claim says two successive `get_move` calls on
equal immutable board states, each completing its search to the same
extent, return the same move.  On `exC7` the first call (fresh cache,
nine timer checks) and the second call (the cache left by the first, one
timer check) both complete exactly depth 1 — each call is still running
after one deepening iteration (`fuel = 1` gives `none`) and times out
during depth 2 — yet they return different moves: the cache populated by
the first call changes the ordering and the cached values reused by the
second call's depth-1 search.
-/
theorem get_move_not_idempotent :
    (get_move cfgAB (fun n => decide (n < 9)) 1 exC7
      (exC7.get_legal_moves none) [] 0).isNone = true ∧
    (get_move cfgAB (fun n => decide (n < 1)) 1 exC7
      (exC7.get_legal_moves none) exC7cache1 0).isNone = true ∧
    exC7call1.isSome = true ∧ exC7call2.isSome = true ∧
    exC7move1 = (0, 2) ∧ exC7move2 = (1, 3) := by
  decide

/-- With `method = minimax`, the search never touches the cache: the
selected method returns the cache unchanged. -/
theorem methodFn_minimax_cache (cfg : AgentCfg)
    (hm : cfg.methodAB = false) (ok : Nat → Bool) (g : Board)
    (depth : Nat) (cache : Cache) (n : Nat) :
    (methodFn cfg ok g depth cache n).2.1 = cache := by
  unfold methodFn
  rw [if_neg (by simp [hm])]
  rcases minimaxT cfg.score cfg.agent ok depth g true n with ⟨e, n1⟩
  cases e <;> rfl

/-- With `method = minimax`, the deepening loop returns the cache it was
given. -/
theorem deepen_minimax_cache (cfg : AgentCfg) (hm : cfg.methodAB = false)
    (ok : Nat → Bool) (g : Board) :
    ∀ (fuel : Nat) (best : Val × Loc) (depth : Nat) (cache : Cache)
      (n : Nat) (b : Val × Loc) (c1 : Cache) (n1 : Nat),
      deepen cfg ok g fuel best depth cache n = some (b, c1, n1) →
      c1 = cache := by
  intro fuel
  induction fuel with
  | zero => intro best depth cache n b c1 n1 h; cases h
  | succ fuel ih =>
    intro best depth cache n b c1 n1 h
    rw [deepen] at h
    have hcc := methodFn_minimax_cache cfg hm ok g depth cache n
    rcases hres : methodFn cfg ok g depth cache n with ⟨e, c0, n0⟩
    rw [hres] at h hcc
    cases e with
    | error e =>
      obtain ⟨rfl, rfl, rfl⟩ : b = best ∧ c1 = c0 ∧ n1 = n0 := by
        simpa using h.symm
      exact hcc
    | ok r => exact (ih _ _ _ _ _ _ _ h).trans hcc

/--
**C7 amended.** `get_move` is idempotent only when the transposition
cache cannot influence it: with `method = minimax` the cache is left
untouched (`c1 = cache`), so calling `get_move` again on the same
immutable state with the same timer behaviour reproduces the same move.
With `method = alphabeta` as configured by default, the cache populated
by the first call can change the second call's move — see
`get_move_not_idempotent`.
-/
theorem get_move_minimax_idempotent (cfg : AgentCfg)
    (hm : cfg.methodAB = false) (ok : Nat → Bool) (fuel : Nat) (g : Board)
    (lm : List Loc) (cache : Cache) (n : Nat) (m : Loc) (c1 : Cache)
    (n1 : Nat)
    (h : get_move cfg ok fuel g lm cache n = some (m, c1, n1)) :
    c1 = cache ∧ get_move cfg ok fuel g lm c1 n = some (m, c1, n1) := by
  have hcc : c1 = cache := by
    unfold get_move at h
    by_cases hlm : lm.isEmpty
    · rw [if_pos hlm] at h
      obtain ⟨rfl, rfl, rfl⟩ : m = noMove ∧ c1 = cache ∧ n1 = n := by
        simpa using h.symm
      rfl
    · rw [if_neg hlm] at h
      dsimp only at h
      by_cases hit : cfg.iterative = true
      · rw [if_pos hit] at h
        rcases hres : deepen cfg ok g fuel
            (cfg.score (g.forecast_move (lm.headD noMove)) cfg.agent,
              lm.headD noMove) 1 cache n with _ | ⟨b, c0, n0⟩
        · rw [hres] at h
          cases h
        · rw [hres] at h
          obtain ⟨rfl, rfl, rfl⟩ : m = b.2 ∧ c1 = c0 ∧ n1 = n0 := by
            simpa using h.symm
          exact deepen_minimax_cache cfg hm ok g fuel _ 1 cache n b c1 n1
            hres
      · rw [if_neg hit] at h
        have hcc0 := methodFn_minimax_cache cfg hm ok g cfg.search_depth
          cache n
        rcases hres : methodFn cfg ok g cfg.search_depth cache n
          with ⟨e, c0, n0⟩
        rw [hres] at h hcc0
        cases e with
        | error e =>
          obtain ⟨rfl, rfl, rfl⟩ :
              m = (lm.headD noMove) ∧ c1 = c0 ∧ n1 = n0 := by
            simpa using h.symm
          exact hcc0
        | ok r =>
          obtain ⟨rfl, rfl, rfl⟩ : m = r.2 ∧ c1 = c0 ∧ n1 = n0 := by
            simpa using h.symm
          exact hcc0
  refine ⟨hcc, ?_⟩
  subst hcc
  exact h

/-- Witness for `get_move_minimax_idempotent` on a concrete call: the
minimax-method agent returns (0,2) on `exC7`, leaves the cache empty, and
the repeated identical call returns (0,2) again. -/
theorem get_move_minimax_idempotent_witness :
    cfgMM.methodAB = false ∧
    ([] : Cache) = ([] : Cache) ∧
    get_move cfgMM (fun n => decide (n < 9)) 5 exC7
        (exC7.get_legal_moves none) [] 0 =
      some ((0, 2), [], 9) :=
  ⟨rfl, (get_move_minimax_idempotent cfgMM rfl (fun n => decide (n < 9)) 5
      exC7 (exC7.get_legal_moves none) [] 0 (0, 2) [] 9 (by decide)).1,
    (get_move_minimax_idempotent cfgMM rfl (fun n => decide (n < 9)) 5
      exC7 (exC7.get_legal_moves none) [] 0 (0, 2) [] 9 (by decide)).2⟩

/-- The eight knight targets of a cell are pairwise distinct. -/
theorem knightNbrs_nodup (l : Loc) : (knightNbrs l).Nodup := by
  unfold knightNbrs
  refine List.Nodup.map ?_ (by decide)
  intro a b h
  rw [Prod.ext_iff] at h
  obtain ⟨h1, h2⟩ := h
  dsimp only at h1 h2
  rw [Prod.ext_iff]
  omega

/-- Unfolding of the availability test: in bounds, and the cell's bit is
clear in the given occupancy set. -/
theorem is_available_iff (b : Board) (state : Nat) (l : Loc) :
    b.is_available state l = true ↔
      (0 ≤ l.1 ∧ l.1 < (b.height : Int) ∧ 0 ≤ l.2 ∧ l.2 < (b.width : Int)) ∧
        state.testBit (b.bitIdx l) = false := by
  unfold Board.is_available
  rw [and_one_eq_zero_iff_testBit]
  simp only [Bool.and_eq_true, decide_eq_true_eq, Bool.not_eq_true']
  tauto

/-- On a cell with nonnegative coordinates the bit index is
`row * width + col` over the natural numbers. -/
theorem bitIdx_eq_of_inb (b : Board) (l : Loc) (h1 : 0 ≤ l.1) (h3 : 0 ≤ l.2) :
    b.bitIdx l = l.1.toNat * b.width + l.2.toNat := by
  unfold Board.bitIdx
  have hmul : l.1 * (b.width : Int) = ((l.1.toNat * b.width : Nat) : Int) := by
    push_cast
    rw [Int.toNat_of_nonneg h1]
  rw [hmul]
  omega

/-- The bit index is injective on in-bounds cells. -/
theorem bitIdx_inj (b : Board) (l l' : Loc)
    (h : 0 ≤ l.1 ∧ l.1 < (b.height : Int) ∧ 0 ≤ l.2 ∧ l.2 < (b.width : Int))
    (h' : 0 ≤ l'.1 ∧ l'.1 < (b.height : Int) ∧ 0 ≤ l'.2 ∧ l'.2 < (b.width : Int))
    (heq : b.bitIdx l = b.bitIdx l') : l = l' := by
  obtain ⟨h1, h2, h3, h4⟩ := h
  obtain ⟨h1', h2', h3', h4'⟩ := h'
  rw [bitIdx_eq_of_inb b l h1 h3, bitIdx_eq_of_inb b l' h1' h3'] at heq
  have hw : 0 < b.width := by omega
  have hc : l.2.toNat < b.width := by omega
  have hc' : l'.2.toNat < b.width := by omega
  have hdiv : l.1.toNat = l'.1.toNat := by
    have d1 : (l.1.toNat * b.width + l.2.toNat) / b.width = l.1.toNat := by
      rw [Nat.mul_comm, Nat.mul_add_div hw, Nat.div_eq_of_lt hc]
      omega
    have d2 : (l'.1.toNat * b.width + l'.2.toNat) / b.width = l'.1.toNat := by
      rw [Nat.mul_comm, Nat.mul_add_div hw, Nat.div_eq_of_lt hc']
      omega
    rw [← d1, ← d2, heq]
  rw [hdiv] at heq
  have hmod : l.2.toNat = l'.2.toNat := by omega
  rw [Prod.ext_iff]
  constructor
  · omega
  · omega

/-- Marking a duplicate-free list of available cells by repeatedly adding
their bits (the source's `explored += 1 << (row * width + col)` loops)
makes exactly those cells unavailable and affects no other cell. -/
theorem foldMark_avail (b : Board) :
    ∀ (xs : List Loc) (E : Nat), xs.Nodup →
      (∀ x ∈ xs, b.is_available E x = true) →
      ∀ y, b.is_available (xs.foldl (fun e l => e + 2 ^ b.bitIdx l) E) y = true ↔
        (b.is_available E y = true ∧ y ∉ xs)
  | [], E, _, _, y => by simp
  | x :: xs, E, hnd, hav, y => by
      simp only [List.foldl_cons]
      have hx := hav x (List.mem_cons_self x xs)
      rw [is_available_iff] at hx
      obtain ⟨hxb, hxbit⟩ := hx
      have hstep : ∀ z, b.is_available (E + 2 ^ b.bitIdx x) z = true ↔
          (b.is_available E z = true ∧ z ≠ x) := by
        intro z
        rw [is_available_iff, is_available_iff]
        constructor
        · rintro ⟨hzb, hzbit⟩
          rw [testBit_add_two_pow (b.bitIdx x) (b.bitIdx z) hxbit,
            Bool.or_eq_false_iff] at hzbit
          refine ⟨⟨hzb, hzbit.2⟩, ?_⟩
          intro hzx
          subst hzx
          simp at hzbit
        · rintro ⟨⟨hzb, hzbit⟩, hne⟩
          refine ⟨hzb, ?_⟩
          rw [testBit_add_two_pow (b.bitIdx x) (b.bitIdx z) hxbit,
            Bool.or_eq_false_iff]
          refine ⟨?_, hzbit⟩
          rw [beq_eq_false_iff_ne]
          intro hidx
          exact hne (bitIdx_inj b z x hzb hxb hidx)
      rw [List.nodup_cons] at hnd
      have hrec := foldMark_avail b xs (E + 2 ^ b.bitIdx x) hnd.2
        (fun z hz => (hstep z).mpr ⟨hav z (List.mem_cons_of_mem x hz),
          fun he => hnd.1 (he ▸ hz)⟩) y
      rw [hrec, hstep y, List.mem_cons]
      tauto

/-- Pointwise-dominated predicates count no more list elements. -/
theorem countP_le_of_pointwise {α : Type} (p q : α → Bool) :
    ∀ l : List α, (∀ a ∈ l, q a = true → p a = true) →
      l.countP q ≤ l.countP p
  | [], _ => Nat.le_refl _
  | a :: l, h => by
      rw [List.countP_cons, List.countP_cons]
      have ht := countP_le_of_pointwise p q l
        fun z hz => h z (List.mem_cons_of_mem a hz)
      by_cases hq : q a = true
      · rw [if_pos hq, if_pos (h a (List.mem_cons_self a l) hq)]
        omega
      · rw [if_neg hq]
        by_cases hp : p a = true
        · rw [if_pos hp]
          omega
        · rw [if_neg hp]
          omega

/-- A pointwise-dominated count is strictly smaller given one list member
counted only by the dominating predicate. -/
theorem countP_lt_of_pointwise {α : Type} (p q : α → Bool) (x : α) :
    ∀ l : List α, (∀ a ∈ l, q a = true → p a = true) → x ∈ l →
      p x = true → q x = false → l.countP q < l.countP p
  | [], _, hx, _, _ => absurd hx (List.not_mem_nil x)
  | a :: l, h, hx, hpx, hqx => by
      rw [List.countP_cons, List.countP_cons]
      rcases List.mem_cons.mp hx with rfl | hxl
      · rw [if_neg (by simp [hqx]), if_pos hpx]
        have ht := countP_le_of_pointwise p q l
          fun z hz => h z (List.mem_cons_of_mem x hz)
        omega
      · have ht := countP_lt_of_pointwise p q x l
          (fun z hz => h z (List.mem_cons_of_mem a hz)) hxl hpx hqx
        by_cases hq : q a = true
        · rw [if_pos hq, if_pos (h a (List.mem_cons_self a l) hq)]
          omega
        · rw [if_neg hq]
          by_cases hp : p a = true
          · rw [if_pos hp]
            omega
          · rw [if_neg hp]
            omega

/-- Counting with the constant-true predicate gives the length. -/
theorem countP_const_true {α : Type} :
    ∀ l : List α, l.countP (fun _ => true) = l.length
  | [] => rfl
  | a :: l => by
      rw [List.countP_cons, countP_const_true l, List.length_cons]
      simp

/-- The all-cells list has exactly `width * height` entries. -/
theorem allCells_length (b : Board) : b.allCells.length = b.width * b.height := by
  unfold Board.allCells
  have hmap : ∀ n k : Nat, ((List.range n).map fun _ => k).sum = n * k := by
    intro n k
    induction n with
    | zero => simp
    | succ n ih =>
        rw [List.range_succ, List.map_append, List.sum_append]
        simp [ih, Nat.succ_mul]
  rw [List.length_flatMap]
  have hcongr : List.map
      (List.length ∘ fun (j : Nat) =>
        List.map (fun (i : Nat) => ((i : Int), (j : Int))) (List.range b.height))
      (List.range b.width) =
      List.map (fun _ => b.height) (List.range b.width) := by
    apply List.map_congr_left
    intro j _
    simp [Function.comp]
  rw [hcongr]
  exact hmap b.width b.height

/-- Unfolding of the minimal-distance predicate. -/
theorem minDist_def (b : Board) (l0 : Loc) (d : Nat) (x : Loc) :
    b.MinDist l0 d x ↔
      (x ∈ b.reachSets l0 d ∧ ∀ e < d, 1 ≤ e → x ∉ b.reachSets l0 e) :=
  Iff.rfl

/-- Membership in the next hop set: available, and a knight neighbour of
some cell of the previous hop set. -/
theorem mem_reachSets_succ (b : Board) (l0 : Loc) (d : Nat) (x : Loc) :
    x ∈ b.reachSets l0 (d + 1) ↔
      (b.is_available b.boardState x = true ∧
        ∃ m ∈ b.reachSets l0 d, x ∈ knightNbrs m) := by
  simp only [Board.reachSets, List.mem_filter, List.mem_flatMap]
  tauto

/-- The first hop set is the available knight neighbours of the start. -/
theorem reachSets_one (b : Board) (l0 : Loc) :
    b.reachSets l0 1 = (knightNbrs l0).filter fun l =>
      b.is_available b.boardState l := by
  show b.reachSets l0 (0 + 1) = _
  simp [Board.reachSets]

/-- Every cell reached in some positive number of hops has a minimal
positive hop distance, no larger. -/
theorem exists_minDist (b : Board) (l0 : Loc) (e : Nat) (x : Loc)
    (he : 1 ≤ e) (hx : x ∈ b.reachSets l0 e) :
    ∃ d, 1 ≤ d ∧ d ≤ e ∧ b.MinDist l0 d x := by
  have hP : ∃ d, 1 ≤ d ∧ x ∈ b.reachSets l0 d := ⟨e, he, hx⟩
  refine ⟨Nat.find hP, (Nat.find_spec hP).1, Nat.find_min' hP ⟨he, hx⟩, ?_⟩
  rw [minDist_def]
  exact ⟨(Nat.find_spec hP).2,
    fun e' he' h1 hmem => Nat.find_min hP he' ⟨h1, hmem⟩⟩

/-- A cell at minimal distance `n + 1` with `n ≥ 1` is available and has
a knight predecessor at minimal distance exactly `n`. -/
theorem minDist_pred (b : Board) (l0 : Loc) (n : Nat) (x : Loc)
    (hn : 1 ≤ n) (h : b.MinDist l0 (n + 1) x) :
    b.is_available b.boardState x = true ∧
      ∃ m, b.MinDist l0 n m ∧ x ∈ knightNbrs m := by
  rw [minDist_def] at h
  obtain ⟨hmem, hmin⟩ := h
  rw [mem_reachSets_succ] at hmem
  obtain ⟨hav, m, hm, hnb⟩ := hmem
  obtain ⟨d, hd1, hdn, hmd⟩ := exists_minDist b l0 n m hn hm
  have hmd1 : m ∈ b.reachSets l0 d := ((minDist_def b l0 d m).mp hmd).1
  have hxd : x ∈ b.reachSets l0 (d + 1) :=
    (mem_reachSets_succ b l0 d x).mpr ⟨hav, m, hmd1, hnb⟩
  have hde : d = n := by
    by_contra hne
    exact hmin (d + 1) (by omega) (by omega) hxd
  subst hde
  exact ⟨hav, m, hmd, hnb⟩

/-- Once some positive distance has no cells at all, no greater distance
has any: minimal distances cannot skip a level. -/
theorem minDist_dead (b : Board) (l0 : Loc) (n : Nat) (hn : 1 ≤ n)
    (hnone : ∀ m, ¬ b.MinDist l0 n m) : ∀ k x, ¬ b.MinDist l0 (n + k) x := by
  intro k
  induction k with
  | zero => exact hnone
  | succ k ih =>
      intro x h
      obtain ⟨-, m, hm, -⟩ := minDist_pred b l0 (n + k) x (by omega) h
      exact ih m hm

/-- A cell's minimal positive hop distance is unique. -/
theorem minDist_unique (b : Board) (l0 : Loc) (d e : Nat) (x : Loc)
    (h1 : 1 ≤ d) (h2 : 1 ≤ e) (hd : b.MinDist l0 d x) (he : b.MinDist l0 e x) :
    d = e := by
  rw [minDist_def] at hd he
  by_contra hne
  rcases Nat.lt_or_ge d e with h | h
  · exact he.2 d h h1 hd.1
  · exact hd.2 e (by omega) h2 he.1

/-- Specification of one frontier expansion: the produced level consists
exactly of the knight neighbours of frontier cells that were available
before the pass, it contains no duplicates, and precisely its members
become unavailable in the updated `explored`. -/
theorem expandLevel_spec (b : Board) :
    ∀ (F : List Loc) (E : Nat),
      (∀ x, x ∈ (b.expandLevel F E).1 ↔
        (b.is_available E x = true ∧ ∃ m ∈ F, x ∈ knightNbrs m)) ∧
      (b.expandLevel F E).1.Nodup ∧
      (∀ y, b.is_available (b.expandLevel F E).2 y = true ↔
        (b.is_available E y = true ∧ y ∉ (b.expandLevel F E).1))
  | [], E => by simp [Board.expandLevel]
  | m :: F, E => by
      simp only [Board.expandLevel]
      set jr := (knightNbrs m).filter
        (fun l => b.is_available E l) with hjr
      set E1 := jr.foldl (fun e l => e + 2 ^ b.bitIdx l) E with hE1
      obtain ⟨ihm, ihnd, ihe⟩ := expandLevel_spec b F E1
      have hjrnd : jr.Nodup := (knightNbrs_nodup m).filter _
      have hjrav : ∀ x ∈ jr, b.is_available E x = true := fun x hx =>
        (List.mem_filter.mp hx).2
      have hjrmem : ∀ x, x ∈ jr ↔
          (x ∈ knightNbrs m ∧ b.is_available E x = true) := fun x =>
        List.mem_filter
      have hfold := foldMark_avail b jr E hjrnd hjrav
      rw [← hE1] at hfold
      refine ⟨?_, ?_, ?_⟩
      · intro x
        rw [List.mem_append, hjrmem x, ihm x, hfold x]
        simp only [List.mem_cons]
        constructor
        · rintro (⟨hnb, hav⟩ | ⟨⟨hav, hnotjr⟩, m', hm', hnb⟩)
          · exact ⟨hav, m, Or.inl rfl, hnb⟩
          · exact ⟨hav, m', Or.inr hm', hnb⟩
        · rintro ⟨hav, m', rfl | hm', hnb⟩
          · exact Or.inl ⟨hnb, hav⟩
          · by_cases hj : x ∈ jr
            · exact Or.inl ((hjrmem x).mp hj)
            · exact Or.inr ⟨⟨hav, hj⟩, m', hm', hnb⟩
      · rw [List.nodup_append]
        refine ⟨hjrnd, ihnd, ?_⟩
        intro a ha ha2
        have hav1 := ((ihm a).mp ha2).1
        exact ((hfold a).mp hav1).2 ha
      · intro y
        rw [ihe y, hfold y, List.mem_append]
        tauto

/-- Invariant specification of the BFS loop of
`Board.get_reachable_locations`: entering a round with the frontier
holding exactly the cells at minimal distance `d` and `explored` covering
the board plus every cell at minimal distance at most `d`, the produced
buckets are duplicate-free and bucket `k` (0-based) holds exactly the
cells at minimal distance `d + 1 + k` — provided the fuel exceeds the
number of cells still available, which each round strictly decreases. -/
theorem bfsLevels_spec (b : Board) (l0 : Loc) :
    ∀ (fuel : Nat) (F : List Loc) (E : Nat) (d : Nat), 1 ≤ d →
      (∀ x, x ∈ F ↔ b.MinDist l0 d x) →
      (∀ y, b.is_available E y = true ↔
        (b.is_available b.boardState y = true ∧
          ∀ e, 1 ≤ e → e ≤ d → y ∉ b.reachSets l0 e)) →
      b.availCount E < fuel →
      (∀ lvl ∈ b.bfsLevels fuel F E, lvl.Nodup) ∧
      (∀ k x, (∃ lvl, (b.bfsLevels fuel F E)[k]? = some lvl ∧ x ∈ lvl) ↔
        b.MinDist l0 (d + 1 + k) x)
  | 0, F, E, d, hd, hF, hE, hfuel => absurd hfuel (by omega)
  | fuel + 1, F, E, d, hd, hF, hE, hfuel => by
      obtain ⟨hmem, hnd, hex⟩ := expandLevel_spec b F E
      have hnext : ∀ x, x ∈ (b.expandLevel F E).1 ↔ b.MinDist l0 (d + 1) x := by
        intro x
        rw [hmem x, minDist_def]
        constructor
        · rintro ⟨hav, m, hmF, hnb⟩
          obtain ⟨hav0, hbound⟩ := (hE x).mp hav
          have hmD := ((minDist_def b l0 d m).mp ((hF m).mp hmF)).1
          refine ⟨(mem_reachSets_succ b l0 d x).mpr ⟨hav0, m, hmD, hnb⟩, ?_⟩
          intro e helt h1e
          exact hbound e h1e (by omega)
        · rintro ⟨hmem1, hmin1⟩
          obtain ⟨hav0, m, hmD, hnb⟩ :=
            minDist_pred b l0 d x hd ((minDist_def b l0 (d + 1) x).mpr
              ⟨hmem1, hmin1⟩)
          refine ⟨(hE x).mpr ⟨hav0, ?_⟩, m, (hF m).mpr hmD, hnb⟩
          intro e h1e hed
          exact hmin1 e (by omega) h1e
      have hE2 : ∀ y, b.is_available (b.expandLevel F E).2 y = true ↔
          (b.is_available b.boardState y = true ∧
            ∀ e, 1 ≤ e → e ≤ d + 1 → y ∉ b.reachSets l0 e) := by
        intro y
        rw [hex y, hE y, hnext y, minDist_def]
        constructor
        · rintro ⟨⟨hav0, hbound⟩, hnm⟩
          refine ⟨hav0, ?_⟩
          intro e h1e hle
          rcases Nat.lt_or_ge e (d + 1) with hlt | hge
          · exact hbound e h1e (by omega)
          · have he1 : e = d + 1 := by omega
            subst he1
            intro hmem1
            exact hnm ⟨hmem1, fun e' he' h1' => hbound e' h1' (by omega)⟩
        · rintro ⟨hav0, hbound⟩
          refine ⟨⟨hav0, fun e h1e hle => hbound e h1e (by omega)⟩, ?_⟩
          rintro ⟨hmem1, -⟩
          exact hbound (d + 1) (by omega) (by omega) hmem1
      by_cases hemp : (b.expandLevel F E).1.isEmpty
      · have hnil : (b.expandLevel F E).1 = [] := List.isEmpty_iff.mp hemp
        have hdead : ∀ m, ¬ b.MinDist l0 (d + 1) m := by
          intro m hm
          have hmm := (hnext m).mpr hm
          rw [hnil] at hmm
          exact List.not_mem_nil m hmm
        have hlevels : b.bfsLevels (fuel + 1) F E = [] := by
          simp only [Board.bfsLevels]
          rw [if_pos hemp]
        refine ⟨?_, ?_⟩
        · rw [hlevels]
          intro lvl hlvl
          exact absurd hlvl (List.not_mem_nil lvl)
        · intro k x
          rw [hlevels]
          simp only [List.getElem?_nil]
          constructor
          · rintro ⟨lvl, hlvl, -⟩
            exact Option.noConfusion hlvl
          · intro hmd
            exact absurd hmd (minDist_dead b l0 (d + 1) (by omega) hdead k x)
      · have hnenil : (b.expandLevel F E).1 ≠ [] := by
          intro hnil
          rw [List.isEmpty_iff] at hemp
          exact hemp hnil
        obtain ⟨x0, hx0⟩ := List.exists_mem_of_ne_nil _ hnenil
        have hx0av : b.is_available E x0 = true := ((hmem x0).mp hx0).1
        have hx0av2 : b.is_available (b.expandLevel F E).2 x0 = false := by
          rw [Bool.eq_false_iff]
          intro htrue
          exact ((hex x0).mp htrue).2 hx0
        have hx0cells : x0 ∈ b.allCells := by
          rw [mem_allCells]
          exact ((is_available_iff b E x0).mp hx0av).1
        have hcount : b.availCount (b.expandLevel F E).2 < b.availCount E := by
          unfold Board.availCount
          exact countP_lt_of_pointwise (fun l => b.is_available E l)
            (fun l => b.is_available (b.expandLevel F E).2 l) x0 b.allCells
            (fun a _ ha => ((hex a).mp ha).1) hx0cells hx0av hx0av2
        obtain ⟨ihnd, ihk⟩ := bfsLevels_spec b l0 fuel (b.expandLevel F E).1
          (b.expandLevel F E).2 (d + 1) (by omega) hnext hE2 (by omega)
        have hlevels : b.bfsLevels (fuel + 1) F E =
            (b.expandLevel F E).1 ::
              b.bfsLevels fuel (b.expandLevel F E).1 (b.expandLevel F E).2 := by
          simp only [Board.bfsLevels]
          rw [if_neg hemp]
        refine ⟨?_, ?_⟩
        · rw [hlevels]
          intro lvl hlvl
          rcases List.mem_cons.mp hlvl with rfl | hlvl2
          · exact hnd
          · exact ihnd lvl hlvl2
        · intro k x
          rw [hlevels]
          cases k with
          | zero =>
              constructor
              · rintro ⟨lvl, hlvl, hxl⟩
                rw [List.getElem?_cons_zero, Option.some.injEq] at hlvl
                rw [← hlvl] at hxl
                exact (hnext x).mp hxl
              · intro hmd
                exact ⟨_, List.getElem?_cons_zero, (hnext x).mpr hmd⟩
          | succ k =>
              rw [List.getElem?_cons_succ]
              have hk := ihk k x
              have harith : d + 1 + 1 + k = d + 1 + (k + 1) := by omega
              rw [harith] at hk
              exact hk

/-- For a placed player the legal moves are the available knight
neighbours of its cell. -/
theorem get_legal_moves_placed (b : Board) (p : PlayerId) (l0 : Loc)
    (hloc : b.location p = some l0) :
    b.get_legal_moves (some p) = (knightNbrs l0).filter fun l =>
      b.is_available b.boardState l := by
  obtain ⟨r, c⟩ := l0
  simp only [Board.get_legal_moves, Option.getD_some, hloc, knightNbrs]

/--
**C8.** For every board and placed player,
`Board.get_reachable_locations` returns the distance buckets in key
order (`d = 1` at list index 0), and bucket `d` holds exactly the cells
whose minimal number of knight hops from the player's location — all
visited cells being in bounds and unoccupied — equals `d`; each bucket is
duplicate-free and no cell occurs in two buckets, so every reachable cell
appears exactly once; bucket 1 is the legal-move list itself; and the
mapping is empty precisely when the player has no legal move.
-/
theorem get_reachable_locations_spec (b : Board) (p : PlayerId) (l0 : Loc)
    (hloc : b.location p = some l0) :
    (∀ (k : Nat) (x : Loc),
        (∃ lvl, (b.get_reachable_locations p)[k]? = some lvl ∧ x ∈ lvl) ↔
        b.MinDist l0 (k + 1) x) ∧
    (∀ lvl ∈ b.get_reachable_locations p, lvl.Nodup) ∧
    (∀ (j k : Nat) (x : Loc),
        (∃ lvl, (b.get_reachable_locations p)[j]? = some lvl ∧ x ∈ lvl) →
        (∃ lvl, (b.get_reachable_locations p)[k]? = some lvl ∧ x ∈ lvl) →
        j = k) ∧
    ((b.get_reachable_locations p).head? =
      if (b.get_legal_moves (some p)).isEmpty then none
      else some (b.get_legal_moves (some p))) ∧
    (b.get_reachable_locations p = [] ↔ b.get_legal_moves (some p) = []) := by
  have hleg := get_legal_moves_placed b p l0 hloc
  have hs1 : b.get_legal_moves (some p) = b.reachSets l0 1 := by
    rw [hleg, reachSets_one]
  have hm1 : ∀ x, x ∈ b.get_legal_moves (some p) ↔ b.MinDist l0 1 x := by
    intro x
    rw [hs1, minDist_def]
    constructor
    · intro hx
      exact ⟨hx, fun e he h1 => absurd he (by omega)⟩
    · rintro ⟨h, -⟩
      exact h
  have hnd1 : (b.get_legal_moves (some p)).Nodup := by
    rw [hleg]
    exact (knightNbrs_nodup l0).filter _
  by_cases hempty : (b.get_legal_moves (some p)).isEmpty
  · have hnil : b.get_legal_moves (some p) = [] := List.isEmpty_iff.mp hempty
    have hgr : b.get_reachable_locations p = [] := by
      unfold Board.get_reachable_locations
      rw [if_pos hempty]
    have hdead : ∀ m, ¬ b.MinDist l0 1 m := by
      intro m hm
      have hmm := (hm1 m).mpr hm
      rw [hnil] at hmm
      exact List.not_mem_nil m hmm
    have hpart1 : ∀ k x,
        (∃ lvl, (b.get_reachable_locations p)[k]? = some lvl ∧ x ∈ lvl) ↔
          b.MinDist l0 (k + 1) x := by
      intro k x
      rw [hgr]
      simp only [List.getElem?_nil]
      constructor
      · rintro ⟨lvl, hlvl, -⟩
        exact Option.noConfusion hlvl
      · intro hmd
        have harith : k + 1 = 1 + k := by omega
        rw [harith] at hmd
        exact absurd hmd (minDist_dead b l0 1 (by omega) hdead k x)
    refine ⟨hpart1, ?_, ?_, ?_, ?_⟩
    · rw [hgr]
      intro lvl hlvl
      exact absurd hlvl (List.not_mem_nil lvl)
    · intro j k x hj hk
      obtain ⟨lvl, hlvl, -⟩ := hj
      rw [hgr] at hlvl
      simp only [List.getElem?_nil] at hlvl
      exact Option.noConfusion hlvl
    · rw [hgr, if_pos hempty]
      rfl
    · rw [hgr, hnil]
      exact ⟨fun _ => rfl, fun _ => rfl⟩
  · have hne : b.get_legal_moves (some p) ≠ [] := by
      intro h0
      rw [List.isEmpty_iff] at hempty
      exact hempty h0
    have hgr : b.get_reachable_locations p =
        b.get_legal_moves (some p) ::
          b.bfsLevels (b.width * b.height) (b.get_legal_moves (some p))
            ((b.get_legal_moves (some p)).foldl
              (fun e l => e + 2 ^ b.bitIdx l) b.boardState) := by
      unfold Board.get_reachable_locations
      rw [if_neg hempty]
    have hlegav : ∀ x ∈ b.get_legal_moves (some p),
        b.is_available b.boardState x = true := by
      intro x hx
      rw [hleg] at hx
      exact (List.mem_filter.mp hx).2
    have hfold := foldMark_avail b (b.get_legal_moves (some p)) b.boardState
      hnd1 hlegav
    have hE0 : ∀ y, b.is_available
        ((b.get_legal_moves (some p)).foldl
          (fun e l => e + 2 ^ b.bitIdx l) b.boardState) y = true ↔
        (b.is_available b.boardState y = true ∧
          ∀ e, 1 ≤ e → e ≤ 1 → y ∉ b.reachSets l0 e) := by
      intro y
      rw [hfold y]
      constructor
      · rintro ⟨hav, hnm⟩
        refine ⟨hav, ?_⟩
        intro e h1 hle
        have he1 : e = 1 := by omega
        subst he1
        rw [← hs1]
        exact hnm
      · rintro ⟨hav, hb⟩
        refine ⟨hav, ?_⟩
        rw [hs1]
        exact hb 1 (by omega) (by omega)
    obtain ⟨x0, hx0⟩ := List.exists_mem_of_ne_nil _ hne
    have hx0av : b.is_available b.boardState x0 = true := hlegav x0 hx0
    have hx0cells : x0 ∈ b.allCells := by
      rw [mem_allCells]
      exact ((is_available_iff b b.boardState x0).mp hx0av).1
    have hx0E0 : b.is_available
        ((b.get_legal_moves (some p)).foldl
          (fun e l => e + 2 ^ b.bitIdx l) b.boardState) x0 = false := by
      rw [Bool.eq_false_iff]
      intro htrue
      exact ((hfold x0).mp htrue).2 hx0
    have hmu : b.availCount
        ((b.get_legal_moves (some p)).foldl
          (fun e l => e + 2 ^ b.bitIdx l) b.boardState) <
        b.width * b.height := by
      have hlt := countP_lt_of_pointwise (fun _ => true)
        (fun l => b.is_available
          ((b.get_legal_moves (some p)).foldl
            (fun e l => e + 2 ^ b.bitIdx l) b.boardState) l)
        x0 b.allCells (fun a _ _ => rfl) hx0cells rfl hx0E0
      have hall := countP_const_true b.allCells
      have hlen := allCells_length b
      unfold Board.availCount
      omega
    obtain ⟨hbnd, hbk⟩ := bfsLevels_spec b l0 (b.width * b.height)
      (b.get_legal_moves (some p))
      ((b.get_legal_moves (some p)).foldl
        (fun e l => e + 2 ^ b.bitIdx l) b.boardState)
      1 (by omega) hm1 hE0 hmu
    have hpart1 : ∀ k x,
        (∃ lvl, (b.get_reachable_locations p)[k]? = some lvl ∧ x ∈ lvl) ↔
          b.MinDist l0 (k + 1) x := by
      intro k x
      rw [hgr]
      cases k with
      | zero =>
          constructor
          · rintro ⟨lvl, hlvl, hxl⟩
            rw [List.getElem?_cons_zero, Option.some.injEq] at hlvl
            rw [← hlvl] at hxl
            exact (hm1 x).mp hxl
          · intro hmd
            exact ⟨_, List.getElem?_cons_zero, (hm1 x).mpr hmd⟩
      | succ k =>
          rw [List.getElem?_cons_succ]
          have hk := hbk k x
          have harith : 1 + 1 + k = k + 1 + 1 := by omega
          rw [harith] at hk
          exact hk
    refine ⟨hpart1, ?_, ?_, ?_, ?_⟩
    · rw [hgr]
      intro lvl hlvl
      rcases List.mem_cons.mp hlvl with rfl | h2
      · exact hnd1
      · exact hbnd lvl h2
    · intro j k x hj hk
      have hmd1 := (hpart1 j x).mp hj
      have hmd2 := (hpart1 k x).mp hk
      have := minDist_unique b l0 (j + 1) (k + 1) x (by omega) (by omega)
        hmd1 hmd2
      omega
    · rw [hgr, if_neg hempty]
      rfl
    · rw [hgr]
      constructor
      · intro h
        exact absurd h (List.cons_ne_nil _ _)
      · intro h
        exact absurd h hne

/-- Concrete instantiation of the reachability specification: on `exOpen`
(player 1 placed at (0,0) of a 3×3 board whose cells (0,0) and (2,2) are
occupied) the cell (0,1) lies in bucket 3 because its minimal hop
distance is 3, and on `exC8` (an otherwise empty 3×3 board with player 1
alone at the centre) the returned mapping is empty. -/
theorem get_reachable_locations_spec_witness :
    (exOpen.location .P1 = some (0, 0) ∧
      (∃ lvl, (exOpen.get_reachable_locations .P1)[2]? = some lvl ∧
        ((0 : Int), (1 : Int)) ∈ lvl)) ∧
    (exC8.location .P1 = some (1, 1) ∧
      exC8.get_reachable_locations .P1 = []) := by
  constructor
  · exact ⟨rfl,
      ((get_reachable_locations_spec exOpen .P1 (0, 0) rfl).1 2
        ((0 : Int), (1 : Int))).mpr (by decide)⟩
  · exact ⟨rfl,
      (get_reachable_locations_spec exC8 .P1 (1, 1) rfl).2.2.2.2.mpr
        (by decide)⟩
